import Mathlib

/-!
Verification of the krill process-orchestrator core against its
natural-language specification.

The definitions below are a shallow embedding of the Rust sources:

* crates/krill-common/src/policy.rs      (RestartPolicy, PolicyConfig)
* crates/krill-common/src/dependency.rs  (Dependency, DependencyCondition, serde)
* crates/krill-common/src/ipc.rs         (ServiceStatus, CommandAction)
* crates/krill-common/src/model.rs       (the daemon model ServiceState)
* crates/krill-common/src/dag.rs         (DependencyGraph and its algorithms)
* crates/krill-daemon/src/dag/mod.rs     (are_dependencies_satisfied)
* crates/krill-daemon/src/runner.rs      (ServiceRunner state machine)
* crates/krill-daemon/src/orchestrator.rs (start_when_ready condition check)
* crates/krill-daemon/src/main.rs        (command dispatch loop)

Rust HashMap/HashSet values are modelled as association lists / lists with
insert-if-absent; every theorem that depends on iteration order quantifies
over the list order, which covers the nondeterministic hash order.
Machine integers (u32, i32) are modelled as Nat/Int: the code only compares
them, never overflows them.  Async effects (process spawning, signals,
waiting with timeouts) are modelled by explicit outcome parameters.
-/

deriving instance DecidableEq for Except

namespace Krill

/-- Embeds RestartPolicy from crates/krill-common/src/policy.rs. -/
inductive RestartPolicy where
  | Always
  | OnFailure
  | Never
deriving DecidableEq, Repr

/-- Embeds PolicyConfig from crates/krill-common/src/policy.rs.
The two Duration fields (restart_delay, stop_timeout) are omitted: they
only parameterize sleeps and timeouts, which are modelled by explicit
outcome parameters. -/
structure PolicyConfig where
  restart : RestartPolicy
  max_restarts : Nat
deriving DecidableEq, Repr

/-- Embeds DependencyCondition from crates/krill-common/src/dependency.rs. -/
inductive DependencyCondition where
  | Started
  | Healthy
deriving DecidableEq, Repr

/-- Embeds Dependency from crates/krill-common/src/dependency.rs. -/
inductive Dependency where
  | Simple (name : String)
  | WithCondition (service : String) (condition : DependencyCondition)
deriving DecidableEq, Repr

/-- Embeds Dependency::service_name. -/
def Dependency.service_name : Dependency → String
  | .Simple name => name
  | .WithCondition service _ => service

/-- Embeds Dependency::condition (Simple defaults to Started). -/
def Dependency.condition : Dependency → DependencyCondition
  | .Simple _ => .Started
  | .WithCondition _ condition => condition

/-- Embeds ServiceStatus from crates/krill-common/src/ipc.rs. -/
inductive ServiceStatus where
  | Starting
  | Running
  | Healthy
  | Degraded
  | Stopping
  | Stopped
  | Failed
deriving DecidableEq, Repr

/-- Embeds ServiceState from crates/krill-common/src/model.rs (the daemon
model used by crates/krill-daemon/src/dag/mod.rs).  Note this enum has no
Pending and no Degraded variant. -/
inductive ModelServiceState where
  | Starting
  | Running
  | Healthy
  | Stopping
  | Stopped
  | Failed
deriving DecidableEq, Repr

/-- Embeds the daemon model Dependency struct used by
crates/krill-daemon/src/dag/mod.rs (krill_common::model::Dependency):
a plain record of service name and condition. -/
structure DependencyD where
  service : String
  condition : DependencyCondition
deriving DecidableEq, Repr

/-- Embeds ServiceState from crates/krill-daemon/src/runner.rs. -/
inductive ServiceState where
  | Pending
  | Starting
  | Running
  | Healthy
  | Degraded
  | Stopping
  | Stopped
  | Failed
deriving DecidableEq, Repr

/-- Embeds RunnerError from crates/krill-daemon/src/runner.rs. -/
inductive RunnerError where
  | SpawnFailed (msg : String)
  | ProcessNotRunning
  | StopTimeout
  | HealthCheckFailed (msg : String)
  | GpuNotAvailable (msg : String)
  | RestartLimitExceeded
deriving DecidableEq, Repr

/-- Embeds the fields of ServiceConfig consulted by the runner operations
under verification: the gpu flag and the policy block. -/
structure ServiceConfig where
  gpu : Bool
  policy : PolicyConfig
deriving DecidableEq, Repr

/-- Embeds the mutable state of ServiceRunner from
crates/krill-daemon/src/runner.rs.  The tokio Child handle is modelled by
an Option Unit recording only its presence; Instant is modelled as a Nat
time stamp in seconds. -/
structure ServiceRunner where
  config : ServiceConfig
  state : ServiceState
  process : Option Unit
  pid : Option Nat
  pgid : Option Nat
  restart_count : Nat
  last_healthy_time : Option Nat
deriving DecidableEq, Repr

/-- Outcome of the command.spawn() call inside ServiceRunner::start. -/
inductive SpawnOutcome where
  | success (pid : Nat)
  | failed
deriving DecidableEq, Repr

/-- Outcome of the timed wait for child exit inside ServiceRunner::stop:
the child exited within policy.stop_timeout, the wait itself returned an
error, or the timeout elapsed. -/
inductive WaitOutcome where
  | exited
  | waitError
  | timedOut
deriving DecidableEq, Repr

/-- Embeds ServiceRunner::start (runner.rs lines 105-214).  The GPU probe
and the spawn are environment effects, passed in as parameters.  The
command building, process naming, environment injection and working
directory do not touch the runner struct and are not modelled; on spawn
success the pid is recorded and the process group is set to the pid
(the setpgid-failure path, which merely leaves pgid unset, is not
exercised by any claim). -/
def ServiceRunner.start (r : ServiceRunner) (gpu_available : Bool)
    (spawn : SpawnOutcome) : ServiceRunner × Except RunnerError Unit :=
  if r.state ≠ ServiceState.Pending ∧ r.state ≠ ServiceState.Stopped then
    -- warn "already in state ..., skipping start"
    (r, .ok ())
  else if r.config.gpu ∧ ¬ gpu_available then
    (r, .error (.GpuNotAvailable "Service requires GPU"))
  else if r.config.policy.max_restarts > 0 ∧
      r.restart_count ≥ r.config.policy.max_restarts then
    ({r with state := .Failed}, .error .RestartLimitExceeded)
  else
    let r1 := {r with state := ServiceState.Starting}
    match spawn with
    | .failed => (r1, .error (.SpawnFailed "Failed to spawn"))
    | .success pid =>
        ({r1 with state := .Running, process := some (),
                  pid := some pid, pgid := some pid}, .ok ())

/-- Embeds ServiceRunner::cleanup (runner.rs lines 289-294). -/
def ServiceRunner.cleanup (r : ServiceRunner) : ServiceRunner :=
  {r with state := .Stopped, process := none, pid := none, pgid := none}

/-- Embeds ServiceRunner::force_kill (runner.rs lines 271-287): SIGKILL to
the group (no struct change), bounded wait, then cleanup; always Ok. -/
def ServiceRunner.force_kill (r : ServiceRunner) :
    ServiceRunner × Except RunnerError Unit :=
  (r.cleanup, .ok ())

/-- Embeds ServiceRunner::stop (runner.rs lines 217-268).  The stop
command spawn and the SIGTERM do not modify the runner struct; the timed
wait outcome is a parameter. -/
def ServiceRunner.stop (r : ServiceRunner) (wait : WaitOutcome) :
    ServiceRunner × Except RunnerError Unit :=
  if r.state = ServiceState.Stopped ∨ r.state = ServiceState.Pending then
    (r, .ok ())
  else
    let r1 := {r with state := ServiceState.Stopping}
    match r1.process with
    | none => (r1, .error .ProcessNotRunning)
    | some _ =>
        match wait with
        | .exited => (r1.cleanup, .ok ())
        | .waitError => r1.force_kill
        | .timedOut => r1.force_kill

/-- Embeds ServiceRunner::update_health (runner.rs lines 306-329).  The
current Instant::now() is the parameter now (seconds); elapsed() is
truncated subtraction.  Note the source sets last_healthy_time to now
immediately before reading it back for the elapsed comparison. -/
def ServiceRunner.update_health (r : ServiceRunner) (is_healthy : Bool)
    (now : Nat) : ServiceRunner :=
  match r.state, is_healthy with
  | .Running, true =>
      let r1 := {r with state := ServiceState.Healthy,
                        last_healthy_time := some now}
      match r1.last_healthy_time with
      | some last_healthy =>
          if now - last_healthy > 60 then {r1 with restart_count := 0} else r1
      | none => r1
  | .Healthy, false => {r with state := .Degraded}
  | .Degraded, true => {r with state := .Healthy}
  | _, _ => r

/-- Embeds ServiceRunner::mark_failed (runner.rs lines 332-336). -/
def ServiceRunner.mark_failed (r : ServiceRunner) : ServiceRunner :=
  {r with state := .Failed, restart_count := r.restart_count + 1}

/-- Embeds ServiceRunner::increment_restart_count (runner.rs 100-102). -/
def ServiceRunner.increment_restart_count (r : ServiceRunner) : ServiceRunner :=
  {r with restart_count := r.restart_count + 1}

/-- Embeds ServiceRunner::should_restart (runner.rs lines 339-360). -/
def ServiceRunner.should_restart (r : ServiceRunner) (exit_code : Option Int) :
    Bool :=
  match r.config.policy.restart with
  | .Never => false
  | .Always =>
      if r.config.policy.max_restarts > 0 then
        decide (r.restart_count < r.config.policy.max_restarts)
      else
        true
  | .OnFailure =>
      let is_failure := (exit_code.map (fun c => decide (c ≠ 0))).getD true
      if is_failure ∧ r.config.policy.max_restarts > 0 then
        decide (r.restart_count < r.config.policy.max_restarts)
      else
        is_failure

/-- Embeds CommandAction from crates/krill-common/src/ipc.rs. -/
inductive CommandAction where
  | Start
  | Stop
  | Restart
  | Kill
  | StopDaemon
deriving DecidableEq, Repr

/-- Observable orchestrator invocations made by the daemon command loop. -/
inductive OrchestratorCall where
  | stop_service (name : String)
  | restart_service (name : String)
  | shutdown
deriving DecidableEq, Repr

/-- Embeds the command dispatch loop body of crates/krill-daemon/src/main.rs
(lines 115-152): which orchestrator operations one (action, target)
command triggers.  Arms that only log a warning trigger none. -/
def dispatchCommand : CommandAction → Option String → List OrchestratorCall
  | .StopDaemon, _ => [.shutdown]
  | .Stop, some service => [.stop_service service]
  | .Stop, none => []        -- warn: Stop requires a target
  | .Restart, some service => [.restart_service service]
  | .Restart, none => []     -- warn: Restart requires a target
  | .Start, _ => []          -- warn: Start not implemented
  | .Kill, _ => []           -- warn: Kill not implemented - use Stop instead

/-- Association-list lookup, modelling HashMap::get on a map whose
entries are listed in some iteration order. -/
def lookupA {α : Type} : List (String × α) → String → Option α
  | [], _ => none
  | (k, v) :: rest, key => if k = key then some v else lookupA rest key

/-- Embeds DependencyGraph from crates/krill-common/src/dag.rs.  The two
HashMaps become association lists, the services HashSet becomes a list;
the entry orders model the nondeterministic hash iteration orders. -/
structure DependencyGraph where
  edges : List (String × List String)
  reverse_edges : List (String × List Dependency)
  services : List String
deriving DecidableEq, Repr

/-- Embeds DependencyGraph::dependencies_satisfied
(crates/krill-common/src/dag.rs lines 192-222); the early-return loop is
List.all. -/
def DependencyGraph.dependencies_satisfied (g : DependencyGraph)
    (service : String) (get_status : String → ServiceStatus) : Bool :=
  match lookupA g.reverse_edges service with
  | some deps =>
      deps.all (fun dep =>
        match dep.condition with
        | .Started =>
            match get_status dep.service_name with
            | .Running | .Healthy | .Degraded => true
            | _ => false
        | .Healthy =>
            match get_status dep.service_name with
            | .Healthy => true
            | _ => false)
  | none => true

/-- Embeds DependencyGraph::are_dependencies_satisfied from
crates/krill-daemon/src/dag/mod.rs (lines 234-265), a function of that
graph type's reverse map.  Its Started arm accepts only Running and
Healthy (the model ServiceState enum has no Degraded variant). -/
def are_dependencies_satisfied (reverse : List (String × List DependencyD))
    (service : String) (get_state : String → ModelServiceState) : Bool :=
  match lookupA reverse service with
  | none => true
  | some dependencies =>
      dependencies.all (fun dependency =>
        match dependency.condition with
        | .Started =>
            match get_state dependency.service with
            | .Running | .Healthy => true
            | _ => false
        | .Healthy =>
            match get_state dependency.service with
            | .Healthy => true
            | _ => false)

/-- Embeds the condition_met computation in Orchestrator::start_when_ready
(crates/krill-daemon/src/orchestrator.rs lines 153-159). -/
def conditionMet (condition : DependencyCondition) (dep_state : ServiceState) :
    Bool :=
  match condition with
  | .Started =>
      match dep_state with
      | .Running | .Healthy | .Degraded => true
      | _ => false
  | .Healthy =>
      match dep_state with
      | .Healthy => true
      | _ => false

/-- Spec-side table (from the spec text, for comparison with the code):
satisfaction of a dependency condition by an ipc ServiceStatus. -/
def specSatisfiedStatus (condition : DependencyCondition)
    (status : ServiceStatus) : Bool :=
  match condition with
  | .Started =>
      decide (status = .Running ∨ status = .Healthy ∨ status = .Degraded)
  | .Healthy => decide (status = .Healthy)

/-- Spec-side table restricted to the daemon model ServiceState enum (which
has no Degraded variant, so the spec set Running/Healthy/Degraded meets
this enum in Running and Healthy). -/
def specSatisfiedModelState (condition : DependencyCondition)
    (st : ModelServiceState) : Bool :=
  match condition with
  | .Started => decide (st = .Running ∨ st = .Healthy)
  | .Healthy => decide (st = .Healthy)

/-- Spec-side table over the runner ServiceState enum. -/
def specSatisfiedRunnerState (condition : DependencyCondition)
    (st : ServiceState) : Bool :=
  match condition with
  | .Started => decide (st = .Running ∨ st = .Healthy ∨ st = .Degraded)
  | .Healthy => decide (st = .Healthy)

/-- Spec-side restart table (from the spec text, for comparison with
ServiceRunner::should_restart): Never is false; Always is true iff the
budget allows; OnFailure additionally requires a failing exit, with a
missing exit code counted as failure. -/
def specShouldRestart (policy : PolicyConfig) (restart_count : Nat)
    (exit_code : Option Int) : Bool :=
  match policy.restart with
  | .Never => false
  | .Always =>
      decide (policy.max_restarts = 0 ∨ restart_count < policy.max_restarts)
  | .OnFailure =>
      decide (exit_code ≠ some 0) &&
      decide (policy.max_restarts = 0 ∨ restart_count < policy.max_restarts)

/-- Embeds DagError from crates/krill-common/src/dag.rs. -/
inductive DagError where
  | CircularDependency (msg : String)
  | UnknownService (name : String)
  | OrderingError (msg : String)
deriving DecidableEq, Repr

/-- HashSet::insert modelled on a duplicate-free list: append if absent. -/
def setInsert (xs : List String) (x : String) : List String :=
  if x ∈ xs then xs else xs ++ [x]

/-- HashMap::get_mut on an association list: apply f at the given key. -/
def alAdjust {α : Type} (m : List (String × α)) (key : String) (f : α → α) :
    List (String × α) :=
  m.map (fun p => if p.1 = key then (p.1, f p.2) else p)

/-- List of names a service directly depends on, as read by the DAG
algorithms from the reverse_edges map (absent key reads as empty). -/
def revNames (g : DependencyGraph) (s : String) : List String :=
  ((lookupA g.reverse_edges s).getD []).map Dependency.service_name

/-- List of direct dependents of a service, as read from the edges map. -/
def fwdNames (g : DependencyGraph) (s : String) : List String :=
  (lookupA g.edges s).getD []

/-- One step of the dependency-edge building loop of DependencyGraph::new
(dag.rs lines 44-65): validate that the dependency target exists, then add
the forward edge target -> service and push the reverse edge. -/
def addDependency (g : DependencyGraph) (service_name : String)
    (dep : Dependency) : Except DagError DependencyGraph :=
  if dep.service_name ∈ g.services then
    .ok { g with
          edges := alAdjust g.edges dep.service_name
                     (fun l => setInsert l service_name),
          reverse_edges := alAdjust g.reverse_edges service_name
                     (fun l => l ++ [dep]) }
  else
    .error (.UnknownService dep.service_name)

/-- All nodes the cycle DFS can ever visit: the services plus every name
mentioned in the reverse_edges lists.  Used to size the DFS fuel. -/
def dfsCandidates (g : DependencyGraph) : List String :=
  g.services ++ g.reverse_edges.flatMap (fun p => p.2.map Dependency.service_name)

/-- Fuel for the cycle DFS: strictly more than the number of distinct
nodes it can visit, so it never runs out (proved below). -/
def dfsFuel (g : DependencyGraph) : Nat :=
  (dfsCandidates g).length + 1

/-- Body of the dependency loop of dfs_cycle_check, for one dependency d
of the service s currently being visited: skip once a cycle witness is
found; a visited dependency on the recursion stack is a back edge (cycle
witness), a visited one off the stack is skipped, an unvisited one is
descended into via recur. -/
def dfsVisit (s : String)
    (recur : String → List String → List String →
      Option String × List String × List String)
    (acc : Option String × List String × List String) (d : String) :
    Option String × List String × List String :=
  match acc with
  | (some c, st) => (some c, st)
  | (none, vis2, rs2) =>
      if d ∈ vis2 then
        if d ∈ rs2 then (some (s ++ " -> " ++ d), vis2, rs2)
        else (none, vis2, rs2)
      else recur d vis2 rs2

/-- Embeds DependencyGraph::dfs_cycle_check (dag.rs lines 95-120).  The
recursion of the source is fuel-indexed; the fuel-0 branch is unreachable
for the fuel chosen by check_cycles (proved below).  State threaded is
(cycle-witness option, visited, rec_stack); the loop over the dependency
list carries an already-found witness through unchanged (the early
return of the source). -/
def dfsCycle (g : DependencyGraph) :
    Nat → String → List String → List String →
    Option String × List String × List String
  | 0, _, vis, rstack => (some "fuel exhausted", vis, rstack)
  | fuel + 1, s, vis, rstack =>
      let vis1 := setInsert vis s
      let rs1 := setInsert rstack s
      let step := (revNames g s).foldl
        (dfsVisit s (dfsCycle g fuel)) (none, vis1, rs1)
      match step with
      | (some c, vis2, rs2) => (some c, vis2, rs2)
      | (none, vis2, rs2) => (none, vis2, rs2.erase s)

/-- Embeds the loop of DependencyGraph::check_cycles (dag.rs lines 80-93):
run the DFS from every not-yet-visited service, threading visited and the
recursion stack (the stack returns to its input value whenever the DFS
reports no cycle). -/
def checkCyclesLoop (g : DependencyGraph) :
    List String → List String → List String → Option String
  | [], _, _ => none
  | s :: ss, vis, rstack =>
      if s ∈ vis then checkCyclesLoop g ss vis rstack
      else
        match dfsCycle g (dfsFuel g) s vis rstack with
        | (some c, _, _) => some c
        | (none, vis2, rs2) => checkCyclesLoop g ss vis2 rs2

/-- Embeds DependencyGraph::check_cycles. -/
def DependencyGraph.check_cycles (g : DependencyGraph) : Option String :=
  checkCyclesLoop g g.services [] []

/-- Collection of all service names of the input map into the services
HashSet (dag.rs lines 36-41). -/
def newServices (input : List (String × List Dependency)) : List String :=
  input.foldl (fun acc e => setInsert acc e.1) []

/-- Initial graph of DependencyGraph::new: every service key mapped to an
empty edge set and an empty reverse-edge list. -/
def initGraph (input : List (String × List Dependency)) : DependencyGraph :=
  { edges := (newServices input).map (fun k => (k, [])),
    reverse_edges := (newServices input).map (fun k => (k, [])),
    services := newServices input }

/-- Dependency list of one entry folded through addDependency. -/
def addEntryDeps (service_name : String) (deps : List Dependency)
    (g : DependencyGraph) : Except DagError DependencyGraph :=
  deps.foldlM (fun g dep => addDependency g service_name dep) g

/-- Edge-building loop of DependencyGraph::new over all entries. -/
def addAllDependencies (input : List (String × List Dependency))
    (g : DependencyGraph) : Except DagError DependencyGraph :=
  input.foldlM (fun g entry => addEntryDeps entry.1 entry.2 g) g

/-- Embeds DependencyGraph::new (dag.rs lines 31-77).  The input HashMap
is an association list in hash iteration order; all three containers are
first initialised for every key, then the dependency edges are added with
unknown targets rejected, then cycles are rejected. -/
def DependencyGraph.new (input : List (String × List Dependency)) :
    Except DagError DependencyGraph := do
  let g ← addAllDependencies input (initGraph input)
  match g.check_cycles with
  | some cycle => throw (.CircularDependency cycle)
  | none => pure g

/-- Fuel for the Kahn queue loop: more than the number of possible queue
pushes (every service once at initialisation plus at most one push per
forward-edge entry). -/
def kahnFuel (g : DependencyGraph) : Nat :=
  g.services.length + (g.edges.map (fun p => p.2.length)).sum + 1

/-- In-degree initialisation of DependencyGraph::startup_order (dag.rs
lines 128-136): every service maps to the length of its reverse-edge
list, and services of degree zero seed the queue, in iteration order.
Degrees are Int: usize subtraction in the source wraps rather than
reaching zero again, so an ideal integer never spuriously re-hits zero
(no execution on a representable input ever goes negative). -/
def startupInit (g : DependencyGraph) : List (String × Int) × List String :=
  g.services.foldl
    (fun (acc : List (String × Int) × List String) service =>
      let degree : Int := ((lookupA g.reverse_edges service).getD []).length
      (acc.1 ++ [(service, degree)],
       if degree = 0 then acc.2 ++ [service] else acc.2))
    ([], [])

/-- Body of the dependent loop of startup_order for one dependent of the
popped service: decrement its in-degree and enqueue it when the degree
reaches zero.  The get_mut().unwrap() of the source is total for graphs
built by new, whose dependents are always in-degree keys. -/
def kahnStep (acc : List (String × Int) × List String) (dependent : String) :
    List (String × Int) × List String :=
  let d1 := ((lookupA acc.1 dependent).getD 0) - 1
  (alAdjust acc.1 dependent (fun _ => d1),
   if d1 = 0 then acc.2 ++ [dependent] else acc.2)

/-- Queue-processing loop of DependencyGraph::startup_order (dag.rs lines
139-152): pop a service, append it to the order, decrement every
dependent's in-degree and enqueue those that reach zero; fuel exhaustion
returns none (the fuel chosen by startup_order makes this unreachable for
built graphs, and the caller maps none to the same OrderingError as an
incomplete order). -/
def kahnLoop (g : DependencyGraph) :
    Nat → List (String × Int) → List String → List String →
    Option (List String)
  | 0, _, queue, order =>
      match queue with
      | [] => some order
      | _ :: _ => none
  | fuel + 1, inDeg, queue, order =>
      match queue with
      | [] => some order
      | service :: queueRest =>
          let order1 := order ++ [service]
          let st := (fwdNames g service).foldl kahnStep (inDeg, queueRest)
          kahnLoop g fuel st.1 st.2 order1

/-- Embeds DependencyGraph::startup_order (dag.rs lines 123-161). -/
def DependencyGraph.startup_order (g : DependencyGraph) :
    Except DagError (List String) :=
  let init := startupInit g
  match kahnLoop g (kahnFuel g) init.1 init.2 [] with
  | none => .error (.OrderingError "Unable to determine complete startup order")
  | some order =>
      if order.length = g.services.length then .ok order
      else .error (.OrderingError "Unable to determine complete startup order")

/-- Embeds DependencyGraph::shutdown_order (dag.rs lines 164-168). -/
def DependencyGraph.shutdown_order (g : DependencyGraph) :
    Except DagError (List String) :=
  (g.startup_order).map List.reverse

/-- All names occurring in the dependents lists, deduplicated: every
element the cascade BFS can ever insert.  Sizes the cascade fuel. -/
def cascadeCandidates (g : DependencyGraph) : List String :=
  (g.edges.flatMap (fun p => p.2)).dedup

/-- Fuel for the cascade BFS queue loop. -/
def cascadeFuel (g : DependencyGraph) : Nat :=
  (cascadeCandidates g).length + 2

/-- Body of the dependent loop of cascade_failure for one dependent of
the popped service: if not yet collected, collect and enqueue it. -/
def cascadeStep (acc : List String × List String) (dependent : String) :
    List String × List String :=
  if dependent ∈ acc.2 then acc
  else (acc.1 ++ [dependent], acc.2 ++ [dependent])

/-- Queue loop of DependencyGraph::cascade_failure (dag.rs lines 177-186):
pop a service and insert-and-enqueue each of its dependents not already
collected.  Fuel exhaustion is unreachable (proved below). -/
def cascadeLoop (g : DependencyGraph) :
    Nat → List String → List String → List String
  | 0, _, to_stop => to_stop
  | fuel + 1, queue, to_stop =>
      match queue with
      | [] => to_stop
      | service :: rest =>
          let st := (fwdNames g service).foldl cascadeStep (rest, to_stop)
          cascadeLoop g fuel st.1 st.2

/-- Embeds DependencyGraph::cascade_failure (dag.rs lines 171-189); the
result HashSet is a duplicate-free list in insertion order. -/
def DependencyGraph.cascade_failure (g : DependencyGraph)
    (failed_service : String) : List String :=
  cascadeLoop g (cascadeFuel g) [failed_service] []

/-- Keys of the input services map. -/
def keysOf (input : List (String × List Dependency)) : List String :=
  input.map Prod.fst

/-- Declared dependencies of a service in the input map. -/
def depsOf (input : List (String × List Dependency)) (s : String) :
    List Dependency :=
  (lookupA input s).getD []

/-- Names of the declared dependencies of a service. -/
def depNamesOf (input : List (String × List Dependency)) (s : String) :
    List String :=
  (depsOf input s).map Dependency.service_name

/-- Spec-side dependency step relation on the input map: a depends
directly on b. -/
def DepStep (input : List (String × List Dependency)) (a b : String) : Prop :=
  b ∈ depNamesOf input a

instance (input : List (String × List Dependency)) (a b : String) :
    Decidable (DepStep input a b) := by
  unfold DepStep
  infer_instance

/-- Dependency step relation read off a built graph structure. -/
def DStep (g : DependencyGraph) (a b : String) : Prop :=
  b ∈ revNames g a

instance (g : DependencyGraph) (a b : String) : Decidable (DStep g a b) := by
  unfold DStep
  infer_instance

/-- Forward (dependent) edge relation read off a built graph structure:
s is a direct dependent of d. -/
def FwdStep (g : DependencyGraph) (d s : String) : Prop :=
  s ∈ fwdNames g d

instance (g : DependencyGraph) (d s : String) : Decidable (FwdStep g d s) := by
  unfold FwdStep
  infer_instance

/-- Spec-side safety of a node: no dependency cycle is reachable from it
by following dependency edges. -/
def Safe (g : DependencyGraph) (v : String) : Prop :=
  ∀ w, Relation.ReflTransGen (DStep g) v w →
    ¬ Relation.TransGen (DStep g) w w

/-- Spec-side one-round expansion of a reachable set: everything already
reached plus every direct successor, deduplicated. -/
def expandReach (nbr : String → List String) (acc : List String) :
    List String :=
  (acc ++ acc.flatMap nbr).dedup

/-- Spec-side bounded iteration of expandReach. -/
def iterReach (nbr : String → List String) : Nat → List String → List String
  | 0, acc => acc
  | k + 1, acc => iterReach nbr k (expandReach nbr acc)

/-- Spec-side set of nodes reachable from x in one or more steps of nbr,
computed by saturating expandReach within the size of the given universe
list. -/
def reachFrom (nbr : String → List String) (u : List String) (x : String) :
    List String :=
  iterReach nbr (u.dedup.length + 1) (nbr x).dedup

/-- Universe of names occurring in the input map. -/
def namesUniverse (input : List (String × List Dependency)) : List String :=
  input.flatMap (fun e => e.1 :: e.2.map Dependency.service_name)

/-- Spec-side computable cycle check on the input map: some key reaches
itself in one or more dependency steps. -/
def specHasCycle (input : List (String × List Dependency)) : Bool :=
  (keysOf input).any
    (fun s => s ∈ reachFrom (depNamesOf input) (namesUniverse input) s)

/-- Universe of names occurring in the forward edges of a graph. -/
def fwdUniverse (g : DependencyGraph) : List String :=
  g.edges.flatMap (fun p => p.1 :: p.2)

/-- Rust char::is_whitespace: membership in the Unicode White_Space
property (PropList.txt), the set str::split_whitespace splits on --
TAB, LF, VT, FF, CR, SPACE, NEL, NBSP, OGHAM SPACE MARK, the EN QUAD
to HAIR SPACE range, LINE and PARAGRAPH SEPARATOR, NARROW NO-BREAK
SPACE, MEDIUM MATHEMATICAL SPACE and IDEOGRAPHIC SPACE.  (Lean's own
Char.isWhitespace covers only space, tab, CR and LF, so it would be
too narrow here.) -/
def rustIsWhitespace (c : Char) : Bool :=
  let n := c.toNat
  n = 0x09 || n = 0x0A || n = 0x0B || n = 0x0C || n = 0x0D ||
  n = 0x20 || n = 0x85 || n = 0xA0 || n = 0x1680 ||
  (0x2000 ≤ n && n ≤ 0x200A) || n = 0x2028 || n = 0x2029 ||
  n = 0x202F || n = 0x205F || n = 0x3000

/-- Rust str::split_whitespace on a character list, written with an
accumulator for the word being read: Unicode whitespace ends the
current word (dropped if empty), everything else extends it. -/
def splitWsAux : List Char → List Char → List (List Char)
  | [], current => if current = [] then [] else [current]
  | c :: cs, current =>
      if rustIsWhitespace c then
        if current = [] then splitWsAux cs []
        else current :: splitWsAux cs []
      else splitWsAux cs (current ++ [c])

/-- Rust str::split_whitespace of a string, as the list of its maximal
runs free of Unicode whitespace. -/
def rustSplitWhitespace (s : String) : List String :=
  (splitWsAux s.data []).map (fun w => String.mk w)

/-- Rendering of a DependencyCondition used by the Serialize impl and by
the deserializer patterns (dependency.rs). -/
def condToStr : DependencyCondition → String
  | .Started => "started"
  | .Healthy => "healthy"

/-- Embeds the Serialize impl for Dependency (dependency.rs lines
114-134): a Simple dependency serializes to the bare name, a conditioned
one to the name, a space and the condition word. -/
def serializeDependency : Dependency → String
  | .Simple name => name
  | .WithCondition service condition => service ++ " " ++ condToStr condition

/-- Embeds DependencyVisitor::visit_str (dependency.rs lines 60-81):
split the string on whitespace, accept one token as a Simple dependency
and two tokens whose second is started or healthy as a conditioned one. -/
def visitStr (value : String) : Except String Dependency :=
  match rustSplitWhitespace value with
  | [service] => .ok (.Simple service)
  | [service, cond] =>
      if cond = "started" then .ok (.WithCondition service .Started)
      else if cond = "healthy" then .ok (.WithCondition service .Healthy)
      else .error ("Invalid dependency format: " ++ value)
  | _ => .error ("Invalid dependency format: " ++ value)

/-- Embeds DependencyVisitor::visit_map (dependency.rs lines 84-107):
read the first map entry as service and condition words. -/
def visitMap (entries : List (String × String)) : Except String Dependency :=
  match entries with
  | [] => .error "Expected a service name and condition"
  | (service, condition) :: _ =>
      if condition = "started" then .ok (.WithCondition service .Started)
      else if condition = "healthy" then .ok (.WithCondition service .Healthy)
      else .error ("Invalid condition " ++ condition)

/-- Input shape offered to the Dependency deserializer by
deserialize_any: either a string scalar or a map of string pairs. -/
inductive DepValue where
  | str (s : String)
  | map (entries : List (String × String))
deriving DecidableEq, Repr

/-- Embeds the Deserialize impl for Dependency (dependency.rs lines
42-112), dispatching on the value shape like deserialize_any. -/
def deserializeDependency : DepValue → Except String Dependency
  | .str s => visitStr s
  | .map entries => visitMap entries

/-- Whether a string is a single non-empty token free of Unicode
whitespace (the set Rust splits on). -/
def isTokenB (s : String) : Bool :=
  (!s.data.isEmpty) && s.data.all (fun c => !(rustIsWhitespace c))

/-- Whether a Dependency names its target service with a single token. -/
def dependencyTokenOk : Dependency → Bool
  | .Simple name => isTokenB name
  | .WithCondition service _ => isTokenB service

/-- Concrete linear three-service input: c depends on b depends on a. -/
def inputLinear : List (String × List Dependency) :=
  [("a", []), ("b", [.Simple "a"]), ("c", [.Simple "b"])]

/-- Concrete input in which b declares the same dependency a twice. -/
def inputDupDep : List (String × List Dependency) :=
  [("a", []), ("b", [.Simple "a", .Simple "a"])]

/-- Concrete input with both a cycle (a and b) and an unknown dependency
target (c depends on the undeclared x). -/
def inputCycleUnknown : List (String × List Dependency) :=
  [("a", [.Simple "b"]), ("b", [.Simple "a"]), ("c", [.Simple "x"])]

/-- Concrete two-service cycle. -/
def inputCycle : List (String × List Dependency) :=
  [("a", [.Simple "b"]), ("b", [.Simple "a"])]

/-- Concrete input with an unknown dependency target. -/
def inputUnknown : List (String × List Dependency) :=
  [("a", [.Simple "zzz"])]

/-- Concrete diamond input: b and c depend on a, d depends on b and c. -/
def inputDiamond : List (String × List Dependency) :=
  [("d", [.Simple "b", .Simple "c"]), ("b", [.Simple "a"]),
   ("c", [.Simple "a"]), ("a", [])]

/-- Graph built from the diamond input (the error branch is unreachable:
the diamond is acyclic with all targets declared). -/
def builtDiamond : DependencyGraph :=
  match DependencyGraph.new inputDiamond with
  | .ok g => g
  | .error _ => { edges := [], reverse_edges := [], services := [] }

/-- Graph built from the linear input (the error branch is unreachable). -/
def builtLinear : DependencyGraph :=
  match DependencyGraph.new inputLinear with
  | .ok g => g
  | .error _ => { edges := [], reverse_edges := [], services := [] }

/-- Graph built from the duplicated-dependency input, which builds fine
(the duplicate edge is acyclic and its target exists). -/
def builtDupDep : DependencyGraph :=
  match DependencyGraph.new inputDupDep with
  | .ok g => g
  | .error _ => { edges := [], reverse_edges := [], services := [] }

/-- Concrete runner in state Failed with its restart budget not exhausted
(restart_count 1 under max_restarts 3), as after one mark_failed. -/
def runnerFailedUnderCap : ServiceRunner :=
  { config := { gpu := false,
                policy := { restart := .OnFailure, max_restarts := 3 } },
    state := .Failed, process := some (), pid := some 7, pgid := some 7,
    restart_count := 1, last_healthy_time := none }

/-- Concrete runner in state Failed holding no child process, as produced
by ServiceRunner::start hitting the restart limit before spawning. -/
def runnerFailedNoProcess : ServiceRunner :=
  { config := { gpu := false,
                policy := { restart := .OnFailure, max_restarts := 1 } },
    state := .Failed, process := none, pid := none, pgid := none,
    restart_count := 1, last_healthy_time := none }

/-- Concrete runner in state Stopped. -/
def runnerStopped : ServiceRunner :=
  { config := { gpu := false,
                policy := { restart := .OnFailure, max_restarts := 0 } },
    state := .Stopped, process := none, pid := none, pgid := none,
    restart_count := 0, last_healthy_time := none }

/-- Concrete runner in state Running holding a child process. -/
def runnerRunning : ServiceRunner :=
  { config := { gpu := false,
                policy := { restart := .OnFailure, max_restarts := 0 } },
    state := .Running, process := some (), pid := some 41, pgid := some 41,
    restart_count := 2, last_healthy_time := none }

end Krill

namespace Krill

/-- Claim C1: should_restart(exit_code) is a pure function of the policy and
counters matching the spec table: false under Never; under Always true iff
max_restarts = 0 or restart_count < max_restarts; under OnFailure true iff
the exit is a failure (exit_code ≠ some 0, none counted as failure) and
(max_restarts = 0 or restart_count < max_restarts) — for every policy,
exit code and counter values. -/
theorem claim_C1_restart_policy_purity (r : ServiceRunner)
    (exit_code : Option Int) :
    r.should_restart exit_code =
      specShouldRestart r.config.policy r.restart_count exit_code := by
  unfold ServiceRunner.should_restart specShouldRestart
  cases hres : r.config.policy.restart with
  | Never => rfl
  | Always =>
      by_cases h : r.config.policy.max_restarts > 0
      · simp [h, Nat.pos_iff_ne_zero.mp h]
      · simp [h, Nat.eq_zero_of_not_pos (by simpa using h)]
  | OnFailure =>
      cases exit_code with
      | none =>
          by_cases h : r.config.policy.max_restarts > 0
          · simp [h, Nat.pos_iff_ne_zero.mp h]
          · simp [h, Nat.eq_zero_of_not_pos (by simpa using h)]
      | some c =>
          by_cases hc : c = 0
          · subst hc
            by_cases h : r.config.policy.max_restarts > 0 <;> simp [h]
          · by_cases h : r.config.policy.max_restarts > 0
            · simp [hc, h, Nat.pos_iff_ne_zero.mp h]
            · simp [hc, h, Nat.eq_zero_of_not_pos (by simpa using h)]

end Krill

namespace Krill

/-- Claim C2: a dependency with condition Started is satisfied exactly when
the target's state is Running, Healthy or Degraded, and one with condition
Healthy exactly when the target is Healthy, in every place the check is
performed: the common DAG helper (over ipc ServiceStatus), the daemon DAG
helper (over the model ServiceState enum, which has no Degraded variant,
so the spec set meets it in Running and Healthy), and the orchestrator's
startup gating check (over the runner ServiceState enum). -/
theorem claim_C2_dependency_condition_semantics :
    (∀ (g : DependencyGraph) (service : String)
       (get_status : String → ServiceStatus),
       g.dependencies_satisfied service get_status =
         ((lookupA g.reverse_edges service).getD []).all
           (fun dep => specSatisfiedStatus dep.condition
             (get_status dep.service_name))) ∧
    (∀ (reverse : List (String × List DependencyD)) (service : String)
       (get_state : String → ModelServiceState),
       are_dependencies_satisfied reverse service get_state =
         ((lookupA reverse service).getD []).all
           (fun dep => specSatisfiedModelState dep.condition
             (get_state dep.service))) ∧
    (∀ (condition : DependencyCondition) (st : ServiceState),
       conditionMet condition st = specSatisfiedRunnerState condition st) := by
  refine ⟨?_, ?_, ?_⟩
  · intro g service get_status
    unfold DependencyGraph.dependencies_satisfied
    cases h : lookupA g.reverse_edges service with
    | none => simp
    | some deps =>
        simp only [Option.getD_some]
        congr 1
        funext dep
        cases hc : dep.condition <;>
          cases hs : get_status dep.service_name <;>
            simp [specSatisfiedStatus, hc, hs]
  · intro reverse service get_state
    unfold are_dependencies_satisfied
    cases h : lookupA reverse service with
    | none => simp
    | some deps =>
        simp only [Option.getD_some]
        congr 1
        funext dep
        cases hc : dep.condition <;>
          cases hs : get_state dep.service <;>
            simp [specSatisfiedModelState, hc, hs]
  · intro condition st
    cases condition <;> cases st <;> rfl

/-- Claim C6 (code bug witness): a runner in state Failed whose
restart_count is under a non-zero max_restarts does NOT re-enter Starting
when start() is called — the guard accepts only Pending and Stopped, so
start() is a no-op success that leaves the runner Failed (which also
breaks the monitor's mark_failed-then-start restart path). -/
theorem claim_C6_start_skips_failed :
    runnerFailedUnderCap.state = ServiceState.Failed ∧
    runnerFailedUnderCap.restart_count <
      runnerFailedUnderCap.config.policy.max_restarts ∧
    runnerFailedUnderCap.start true (.success 42) =
      (runnerFailedUnderCap, .ok ()) := by
  decide

/-- Claim C7 counterexample: stop() on a runner that is neither Stopped nor
Pending but holds no child process handle (reachable: start() hitting the
restart limit leaves a Failed runner with no process) returns the
ProcessNotRunning error and leaves the runner in state Stopping, not
Stopped. -/
theorem claim_C7_stop_counterexample :
    runnerFailedNoProcess.state ≠ ServiceState.Stopped ∧
    runnerFailedNoProcess.state ≠ ServiceState.Pending ∧
    (runnerFailedNoProcess.stop .exited).1.state = ServiceState.Stopping ∧
    (runnerFailedNoProcess.stop .exited).2 =
      .error RunnerError.ProcessNotRunning := by
  decide

/-- Claim C7 as amended: stop() on a Stopped or Pending runner is a no-op
success; stop() on any other runner that holds a child process handle
always ends Stopped with pid, pgid and the process handle cleared and
returns success, whichever way the internal wait goes (clean exit, wait
error, or timeout followed by SIGKILL); but a runner without a process
handle gets the ProcessNotRunning error and stays in Stopping. -/
theorem claim_C7_stop_amended :
    (∀ (r : ServiceRunner) (w : WaitOutcome),
       (r.state = ServiceState.Stopped ∨ r.state = ServiceState.Pending) →
       r.stop w = (r, .ok ())) ∧
    (∀ (r : ServiceRunner) (w : WaitOutcome),
       r.state ≠ ServiceState.Stopped → r.state ≠ ServiceState.Pending →
       r.process.isSome →
       (r.stop w).1.state = ServiceState.Stopped ∧
       (r.stop w).1.process = none ∧ (r.stop w).1.pid = none ∧
       (r.stop w).1.pgid = none ∧ (r.stop w).2 = .ok ()) ∧
    (∀ (r : ServiceRunner) (w : WaitOutcome),
       r.state ≠ ServiceState.Stopped → r.state ≠ ServiceState.Pending →
       r.process = none →
       (r.stop w).1.state = ServiceState.Stopping ∧
       (r.stop w).2 = .error RunnerError.ProcessNotRunning) := by
  refine ⟨?_, ?_, ?_⟩
  · intro r w h
    simp [ServiceRunner.stop, h]
  · intro r w h1 h2 h3
    match hp : r.process with
    | none => simp [hp] at h3
    | some u =>
        simp [ServiceRunner.stop, h1, h2, hp]
        cases w <;>
          simp [ServiceRunner.force_kill, ServiceRunner.cleanup]
  · intro r w h1 h2 hp
    simp [ServiceRunner.stop, h1, h2, hp]

/-- Claim C7 amended witness: the amended stop() behaviour evaluated at
concrete runners: a Stopped runner is untouched, and a Running runner with
a process ends Stopped and cleared even on a timed-out wait. -/
theorem claim_C7_stop_amended_witness :
    (runnerStopped.stop .exited = (runnerStopped, .ok ())) ∧
    ((runnerRunning.stop .timedOut).1.state = ServiceState.Stopped ∧
     (runnerRunning.stop .timedOut).1.process = none ∧
     (runnerRunning.stop .timedOut).1.pid = none ∧
     (runnerRunning.stop .timedOut).1.pgid = none ∧
     (runnerRunning.stop .timedOut).2 = .ok ()) :=
  ⟨claim_C7_stop_amended.1 runnerStopped .exited (Or.inl (by decide)),
   claim_C7_stop_amended.2.1 runnerRunning .timedOut (by decide) (by decide)
     (by decide)⟩

/-- Claim C8 (code bug witness): update_health never resets restart_count,
neither in a single call nor across any sequence of timed health updates —
the source overwrites last_healthy_time with the current instant
immediately before comparing the elapsed time against 60 seconds, so the
comparison is always 0 > 60, and once Healthy further healthy updates hit
the catch-all no-op arm. -/
theorem claim_C8_restart_count_never_reset :
    (∀ (r : ServiceRunner) (b : Bool) (now : Nat),
       (r.update_health b now).restart_count = r.restart_count) ∧
    (∀ (r : ServiceRunner) (calls : List (Bool × Nat)),
       (calls.foldl (fun acc p => acc.update_health p.1 p.2) r).restart_count
         = r.restart_count) := by
  have single : ∀ (r : ServiceRunner) (b : Bool) (now : Nat),
      (r.update_health b now).restart_count = r.restart_count := by
    intro r b now
    cases hr : r.state <;> cases b <;>
      simp [ServiceRunner.update_health, hr]
  refine ⟨single, ?_⟩
  intro r calls
  induction calls generalizing r with
  | nil => rfl
  | cons p rest ih => simp [List.foldl_cons, ih, single]

/-- Claim C9 counterexample: dispatching Kill with a target is not a
synonym of dispatching Stop with that target — the Kill arm of the daemon
command loop only logs a warning and invokes no orchestrator operation,
while the Stop arm invokes stop_service. -/
theorem claim_C9_kill_counterexample :
    dispatchCommand .Kill (some "api") = [] ∧
    dispatchCommand .Stop (some "api") = [.stop_service "api"] ∧
    dispatchCommand .Kill (some "api") ≠ dispatchCommand .Stop (some "api") := by
  decide

/-- Claim C9 as amended: Kill is not implemented in the dispatch loop; for
every target it triggers no orchestrator call (only a warning), whereas
Stop with a target triggers exactly stop_service on that target. -/
theorem claim_C9_kill_amended :
    (∀ target, dispatchCommand .Kill target = []) ∧
    (∀ service, dispatchCommand .Stop (some service) =
      [.stop_service service]) := by
  constructor
  · intro target
    cases target <;> rfl
  · intro service
    rfl

end Krill

namespace Krill

lemma mem_setInsert {xs : List String} {x y : String} :
    y ∈ setInsert xs x ↔ y ∈ xs ∨ y = x := by
  unfold setInsert
  by_cases h : x ∈ xs
  · simp only [if_pos h]
    constructor
    · exact Or.inl
    · rintro (hy | rfl) <;> [exact hy; exact h]
  · simp [if_neg h]

lemma setInsert_nodup {xs : List String} {x : String} (h : xs.Nodup) :
    (setInsert xs x).Nodup := by
  unfold setInsert
  by_cases hx : x ∈ xs
  · simpa [hx]
  · rw [if_neg hx]
    refine List.Nodup.append h (List.nodup_singleton x) ?_
    intro a ha hb
    rw [List.mem_singleton] at hb
    exact hx (hb ▸ ha)

lemma subset_setInsert {xs : List String} {x : String} :
    xs ⊆ setInsert xs x := by
  intro y hy
  exact mem_setInsert.mpr (Or.inl hy)

lemma mem_setInsert_self {xs : List String} {x : String} :
    x ∈ setInsert xs x :=
  mem_setInsert.mpr (Or.inr rfl)

lemma lookupA_eq_some_mem {α : Type} {m : List (String × α)} {k : String}
    {v : α} (h : lookupA m k = some v) : (k, v) ∈ m := by
  induction m with
  | nil => simp [lookupA] at h
  | cons p rest ih =>
      by_cases hp : p.1 = k
      · rw [show lookupA (p :: rest) k = some p.2 by
            simp [lookupA, hp]] at h
        cases h
        refine List.mem_cons.mpr (Or.inl ?_)
        rw [← hp]
      · rw [show lookupA (p :: rest) k = lookupA rest k by
            simp [lookupA, hp]] at h
        exact List.mem_cons_of_mem _ (ih h)

lemma lookupA_mem_keys {α : Type} {m : List (String × α)} {k : String}
    {v : α} (h : lookupA m k = some v) : k ∈ m.map Prod.fst := by
  have := lookupA_eq_some_mem h
  exact List.mem_map.mpr ⟨(k, v), this, rfl⟩

lemma lookupA_isNone_of_not_mem {α : Type} {m : List (String × α)}
    {k : String} (h : k ∉ m.map Prod.fst) : lookupA m k = none := by
  induction m with
  | nil => rfl
  | cons p rest ih =>
      simp only [List.map_cons, List.mem_cons, not_or] at h
      have hp : ¬ p.1 = k := fun he => h.1 he.symm
      rw [show lookupA (p :: rest) k = lookupA rest k by simp [lookupA, hp]]
      exact ih h.2

lemma lookupA_initConst {α : Type} {keys : List String} {v : α}
    {s : String} :
    lookupA (keys.map (fun k => (k, v))) s =
      if s ∈ keys then some v else none := by
  induction keys with
  | nil => rfl
  | cons k rest ih =>
      simp only [List.map_cons]
      by_cases hk : k = s
      · subst hk
        simp [lookupA]
      · rw [show lookupA ((k, v) :: rest.map (fun k => (k, v))) s =
              lookupA (rest.map (fun k => (k, v))) s by simp [lookupA, hk]]
        rw [ih]
        by_cases hs : s ∈ rest
        · rw [if_pos hs, if_pos (List.mem_cons.mpr (Or.inr hs))]
        · rw [if_neg hs, if_neg ?_]
          intro hmem
          rcases List.mem_cons.mp hmem with he | he
          · exact hk he.symm
          · exact hs he

lemma alAdjust_cons {α : Type} {p : String × α} {rest : List (String × α)}
    {key : String} {f : α → α} :
    alAdjust (p :: rest) key f =
      (if p.1 = key then (p.1, f p.2) else p) :: alAdjust rest key f := by
  simp [alAdjust]

lemma lookupA_alAdjust_self {α : Type} {m : List (String × α)}
    {key : String} {f : α → α} :
    lookupA (alAdjust m key f) key = (lookupA m key).map f := by
  induction m with
  | nil => rfl
  | cons p rest ih =>
      rw [alAdjust_cons]
      by_cases hp : p.1 = key
      · rw [if_pos hp]
        rw [show lookupA ((p.1, f p.2) :: alAdjust rest key f) key =
              some (f p.2) by simp [lookupA, hp]]
        rw [show lookupA (p :: rest) key = some p.2 by simp [lookupA, hp]]
        rfl
      · rw [if_neg hp]
        rw [show lookupA (p :: alAdjust rest key f) key =
              lookupA (alAdjust rest key f) key by simp [lookupA, hp]]
        rw [show lookupA (p :: rest) key = lookupA rest key by
              simp [lookupA, hp]]
        exact ih

lemma lookupA_alAdjust_other {α : Type} {m : List (String × α)}
    {key k : String} {f : α → α} (h : k ≠ key) :
    lookupA (alAdjust m key f) k = lookupA m k := by
  induction m with
  | nil => rfl
  | cons p rest ih =>
      rw [alAdjust_cons]
      by_cases hp : p.1 = key
      · have hpk : ¬ p.1 = k := fun he => h (he ▸ hp)
        rw [if_pos hp]
        rw [show lookupA ((p.1, f p.2) :: alAdjust rest key f) k =
              lookupA (alAdjust rest key f) k by simp [lookupA, hpk]]
        rw [show lookupA (p :: rest) k = lookupA rest k by
              simp [lookupA, hpk]]
        exact ih
      · rw [if_neg hp]
        by_cases hpk : p.1 = k
        · rw [show lookupA (p :: alAdjust rest key f) k = some p.2 by
                simp [lookupA, hpk]]
          rw [show lookupA (p :: rest) k = some p.2 by simp [lookupA, hpk]]
        · rw [show lookupA (p :: alAdjust rest key f) k =
                lookupA (alAdjust rest key f) k by simp [lookupA, hpk]]
          rw [show lookupA (p :: rest) k = lookupA rest k by
                simp [lookupA, hpk]]
          exact ih

lemma erase_append_self {rs : List String} {s : String} (h : s ∉ rs) :
    (rs ++ [s]).erase s = rs := by
  induction rs with
  | nil => simp
  | cons a rest ih =>
      simp only [List.mem_cons, not_or] at h
      have ha : ¬ (a == s) = true := by
        simpa using fun he => h.1 he.symm
      simp only [List.cons_append, List.erase_cons, ha, if_neg]
      rw [ih h.2]
      simp

lemma nodup_length_le_dedup {l u : List String} (hnd : l.Nodup)
    (hsub : ∀ z ∈ l, z ∈ u) : l.length ≤ u.dedup.length := by
  have h1 : l.toFinset.card = l.length := List.toFinset_card_of_nodup hnd
  have h2 : u.toFinset.card = u.dedup.length := List.card_toFinset u
  have h3 : l.toFinset ⊆ u.toFinset := by
    intro z hz
    rw [List.mem_toFinset] at hz ⊢
    exact hsub z hz
  calc l.length = l.toFinset.card := h1.symm
  _ ≤ u.toFinset.card := Finset.card_le_card h3
  _ = u.dedup.length := h2

lemma mem_expandReach {nbr : String → List String} {acc : List String}
    {y : String} :
    y ∈ expandReach nbr acc ↔ y ∈ acc ∨ ∃ z ∈ acc, y ∈ nbr z := by
  unfold expandReach
  simp [List.mem_dedup, List.mem_flatMap]

lemma subset_expandReach {nbr : String → List String} {acc : List String} :
    acc ⊆ expandReach nbr acc := by
  intro y hy
  exact mem_expandReach.mpr (Or.inl hy)

lemma expandReach_nodup {nbr : String → List String} {acc : List String} :
    (expandReach nbr acc).Nodup :=
  List.nodup_dedup _

lemma iterReach_subset {nbr : String → List String} :
    ∀ (k : Nat) (acc : List String), acc ⊆ iterReach nbr k acc := by
  intro k
  induction k with
  | zero => intro acc; exact fun y hy => hy
  | succ k ih =>
      intro acc y hy
      exact ih (expandReach nbr acc) (subset_expandReach hy)

lemma iterReach_sound {nbr : String → List String} {x : String} :
    ∀ (k : Nat) (acc : List String),
    (∀ z ∈ acc, Relation.TransGen (fun a b => b ∈ nbr a) x z) →
    ∀ y ∈ iterReach nbr k acc, Relation.TransGen (fun a b => b ∈ nbr a) x y := by
  intro k
  induction k with
  | zero => intro acc hacc y hy; exact hacc y hy
  | succ k ih =>
      intro acc hacc y hy
      refine ih (expandReach nbr acc) ?_ y hy
      intro z hz
      rcases mem_expandReach.mp hz with hz | ⟨w, hw, hzw⟩
      · exact hacc z hz
      · exact (hacc w hw).tail hzw

lemma iterReach_stable {nbr : String → List String} :
    ∀ (k : Nat) (acc : List String),
    (∀ z ∈ acc, ∀ w ∈ nbr z, w ∈ acc) →
    ∀ y, y ∈ iterReach nbr k acc ↔ y ∈ acc := by
  intro k
  induction k with
  | zero => intro acc hcl y; exact Iff.rfl
  | succ k ih =>
      intro acc hcl y
      have hset : ∀ z, z ∈ expandReach nbr acc ↔ z ∈ acc := by
        intro z
        rw [mem_expandReach]
        constructor
        · rintro (hz | ⟨w, hw, hzw⟩)
          · exact hz
          · exact hcl w hw z hzw
        · exact Or.inl
      have hcl2 : ∀ z ∈ expandReach nbr acc, ∀ w ∈ nbr z,
          w ∈ expandReach nbr acc := by
        intro z hz w hw
        exact (hset w).mpr (hcl z ((hset z).mp hz) w hw)
      show y ∈ iterReach nbr k (expandReach nbr acc) ↔ y ∈ acc
      rw [ih (expandReach nbr acc) hcl2 y, hset y]

lemma iterReach_closed {nbr : String → List String} {u : List String}
    (hu : ∀ z, ∀ w ∈ nbr z, w ∈ u) :
    ∀ (k : Nat) (acc : List String), acc.Nodup → (∀ z ∈ acc, z ∈ u) →
    u.dedup.length < acc.length + k →
    ∀ z ∈ iterReach nbr k acc, ∀ w ∈ nbr z, w ∈ iterReach nbr k acc := by
  intro k
  induction k with
  | zero =>
      intro acc hnd hsub hbud
      exact absurd (nodup_length_le_dedup hnd hsub) (by omega)
  | succ k ih =>
      intro acc hnd hsub hbud
      by_cases hcl : ∀ z ∈ acc, ∀ w ∈ nbr z, w ∈ acc
      · intro z hz w hw
        have hz2 := (iterReach_stable (k+1) acc hcl z).mp hz
        exact (iterReach_stable (k+1) acc hcl w).mpr (hcl z hz2 w hw)
      · push_neg at hcl
        obtain ⟨z0, hz0, w0, hw0, hw0n⟩ := hcl
        have hwe : w0 ∈ expandReach nbr acc :=
          mem_expandReach.mpr (Or.inr ⟨z0, hz0, hw0⟩)
        have hgrow : acc.length + 1 ≤ (expandReach nbr acc).length := by
          have h1 : (insert w0 acc.toFinset).card = acc.toFinset.card + 1 :=
            Finset.card_insert_of_not_mem (by simpa using hw0n)
          have h2 : insert w0 acc.toFinset ⊆ (expandReach nbr acc).toFinset := by
            intro y hy
            rcases Finset.mem_insert.mp hy with rfl | hy
            · exact List.mem_toFinset.mpr hwe
            · exact List.mem_toFinset.mpr
                (subset_expandReach (List.mem_toFinset.mp hy))
          calc acc.length + 1
              = acc.toFinset.card + 1 := by rw [List.toFinset_card_of_nodup hnd]
          _ = (insert w0 acc.toFinset).card := h1.symm
          _ ≤ (expandReach nbr acc).toFinset.card := Finset.card_le_card h2
          _ = (expandReach nbr acc).length :=
              List.toFinset_card_of_nodup expandReach_nodup
        have hsub2 : ∀ z ∈ expandReach nbr acc, z ∈ u := by
          intro z hz
          rcases mem_expandReach.mp hz with hz | ⟨w, _, hzw⟩
          · exact hsub z hz
          · exact hu w z hzw
        exact ih (expandReach nbr acc) expandReach_nodup hsub2
          (by omega)

lemma reachFrom_sound {nbr : String → List String} {u : List String}
    {x y : String} (h : y ∈ reachFrom nbr u x) :
    Relation.TransGen (fun a b => b ∈ nbr a) x y := by
  refine iterReach_sound _ _ ?_ y h
  intro z hz
  exact Relation.TransGen.single (List.mem_dedup.mp hz)

lemma reachFrom_complete {nbr : String → List String} {u : List String}
    (hu : ∀ z, ∀ w ∈ nbr z, w ∈ u) {x y : String}
    (h : Relation.TransGen (fun a b => b ∈ nbr a) x y) :
    y ∈ reachFrom nbr u x := by
  have hclosed := iterReach_closed hu (u.dedup.length + 1) (nbr x).dedup
    (List.nodup_dedup _)
    (fun z hz => hu x z (List.mem_dedup.mp hz))
    (by omega)
  induction h with
  | single hstep =>
      exact iterReach_subset _ _ (List.mem_dedup.mpr hstep)
  | tail _ hstep ih =>
      exact hclosed _ ih _ hstep

end Krill

namespace Krill

lemma transGen_exists_first {α : Type} {r : α → α → Prop} {a b : α}
    (h : Relation.TransGen r a b) : ∃ c, r a c := by
  induction h with
  | single h => exact ⟨_, h⟩
  | tail _ _ ih => exact ih

lemma depNamesOf_subset_universe {input : List (String × List Dependency)}
    {z w : String} (h : w ∈ depNamesOf input z) :
    w ∈ namesUniverse input := by
  unfold depNamesOf depsOf at h
  cases hlk : lookupA input z with
  | none => rw [hlk] at h; simp at h
  | some deps =>
      rw [hlk] at h
      simp only [Option.getD_some] at h
      have hmem := lookupA_eq_some_mem hlk
      unfold namesUniverse
      rw [List.mem_flatMap]
      exact ⟨(z, deps), hmem, List.mem_cons.mpr (Or.inr h)⟩

lemma mem_keys_of_depNames {input : List (String × List Dependency)}
    {s w : String} (h : w ∈ depNamesOf input s) : s ∈ keysOf input := by
  unfold depNamesOf depsOf at h
  cases hlk : lookupA input s with
  | none => rw [hlk] at h; simp at h
  | some deps => exact lookupA_mem_keys hlk

lemma specHasCycle_iff {input : List (String × List Dependency)} :
    specHasCycle input = true ↔
      ∃ s, Relation.TransGen (DepStep input) s s := by
  constructor
  · intro h
    rw [specHasCycle, List.any_eq_true] at h
    obtain ⟨s, _, hmem⟩ := h
    rw [decide_eq_true_eq] at hmem
    exact ⟨s, reachFrom_sound hmem⟩
  · rintro ⟨s, hcyc⟩
    obtain ⟨c, hc⟩ := transGen_exists_first hcyc
    have hkey : s ∈ keysOf input := mem_keys_of_depNames hc
    have hmem : s ∈ reachFrom (depNamesOf input) (namesUniverse input) s :=
      reachFrom_complete (fun z w hw => depNamesOf_subset_universe hw) hcyc
    rw [specHasCycle, List.any_eq_true]
    exact ⟨s, hkey, decide_eq_true_eq.mpr hmem⟩

lemma mem_newServices {input : List (String × List Dependency)}
    {s : String} : s ∈ newServices input ↔ s ∈ keysOf input := by
  unfold newServices keysOf
  suffices h : ∀ (l : List (String × List Dependency)) (acc : List String),
      s ∈ l.foldl (fun acc e => setInsert acc e.1) acc ↔
        s ∈ acc ∨ s ∈ l.map Prod.fst by
    rw [h input []]
    simp
  intro l
  induction l with
  | nil => intro acc; simp
  | cons e es ih =>
      intro acc
      rw [List.foldl_cons, ih, mem_setInsert]
      simp only [List.map_cons, List.mem_cons]
      tauto

lemma newServices_nodup {input : List (String × List Dependency)} :
    (newServices input).Nodup := by
  unfold newServices
  suffices h : ∀ (l : List (String × List Dependency)) (acc : List String),
      acc.Nodup → (l.foldl (fun acc e => setInsert acc e.1) acc).Nodup from
    h input [] List.nodup_nil
  intro l
  induction l with
  | nil => intro acc h; exact h
  | cons e es ih =>
      intro acc h
      exact ih _ (setInsert_nodup h)

lemma lookupA_isSome_of_mem_keys {α : Type} {m : List (String × α)}
    {k : String} (h : k ∈ m.map Prod.fst) : ∃ v, lookupA m k = some v := by
  induction m with
  | nil => simp at h
  | cons p rest ih =>
      by_cases hp : p.1 = k
      · exact ⟨p.2, by simp [lookupA, hp]⟩
      · rw [List.map_cons, List.mem_cons] at h
        rcases h with h | h
        · exact absurd h.symm hp
        · obtain ⟨v, hv⟩ := ih h
          exact ⟨v, by simp [lookupA, hp, hv]⟩

lemma lookupA_eq_of_mem_nodup {α : Type} {m : List (String × α)}
    {k : String} {v : α} (hnd : (m.map Prod.fst).Nodup)
    (h : (k, v) ∈ m) : lookupA m k = some v := by
  induction m with
  | nil => simp at h
  | cons p rest ih =>
      rw [List.map_cons, List.nodup_cons] at hnd
      rcases List.mem_cons.mp h with h | h
      · cases h
        simp [lookupA]
      · have hp : ¬ p.1 = k := by
          intro he
          exact hnd.1 (he ▸ List.mem_map.mpr ⟨(k, v), h, rfl⟩)
        rw [show lookupA (p :: rest) k = lookupA rest k by
              simp [lookupA, hp]]
        exact ih hnd.2 h

end Krill

namespace Krill

lemma alAdjust_map_fst {α : Type} {m : List (String × α)} {key : String}
    {f : α → α} : (alAdjust m key f).map Prod.fst = m.map Prod.fst := by
  unfold alAdjust
  rw [List.map_map]
  apply List.map_congr_left
  intro p _
  by_cases hp : p.1 = key <;> simp [hp]

lemma addDependency_ok_elim {g g2 : DependencyGraph} {t : String}
    {dep : Dependency} (h : addDependency g t dep = .ok g2) :
    dep.service_name ∈ g.services ∧
    g2 = { g with
           edges := alAdjust g.edges dep.service_name
                      (fun l => setInsert l t),
           reverse_edges := alAdjust g.reverse_edges t
                      (fun l => l ++ [dep]) } := by
  unfold addDependency at h
  by_cases hm : dep.service_name ∈ g.services
  · rw [if_pos hm] at h
    cases h
    exact ⟨hm, rfl⟩
  · rw [if_neg hm] at h
    cases h

lemma addDependency_error_elim {g : DependencyGraph} {t : String}
    {dep : Dependency} {e : DagError}
    (h : addDependency g t dep = .error e) :
    e = .UnknownService dep.service_name ∧ dep.service_name ∉ g.services := by
  unfold addDependency at h
  by_cases hm : dep.service_name ∈ g.services
  · rw [if_pos hm] at h
    cases h
  · rw [if_neg hm] at h
    cases h
    exact ⟨rfl, hm⟩

lemma addDependency_preserves {g g2 : DependencyGraph} {t : String}
    {dep : Dependency} (h : addDependency g t dep = .ok g2) :
    g2.services = g.services ∧
    g2.edges.map Prod.fst = g.edges.map Prod.fst ∧
    g2.reverse_edges.map Prod.fst = g.reverse_edges.map Prod.fst := by
  obtain ⟨_, rfl⟩ := addDependency_ok_elim h
  refine ⟨rfl, ?_, ?_⟩ <;> (dsimp only; exact alAdjust_map_fst)

lemma addDependency_rev_self {g g2 : DependencyGraph} {t : String}
    {dep : Dependency} (h : addDependency g t dep = .ok g2) :
    lookupA g2.reverse_edges t =
      (lookupA g.reverse_edges t).map (fun l => l ++ [dep]) := by
  obtain ⟨_, rfl⟩ := addDependency_ok_elim h
  dsimp only
  exact lookupA_alAdjust_self

lemma addDependency_rev_other {g g2 : DependencyGraph} {t s : String}
    {dep : Dependency} (h : addDependency g t dep = .ok g2) (hs : s ≠ t) :
    lookupA g2.reverse_edges s = lookupA g.reverse_edges s := by
  obtain ⟨_, rfl⟩ := addDependency_ok_elim h
  dsimp only
  exact lookupA_alAdjust_other hs

lemma addDependency_fwd {g g2 : DependencyGraph} {t : String}
    {dep : Dependency} (hkeys : g.edges.map Prod.fst = g.services)
    (h : addDependency g t dep = .ok g2) (d x : String) :
    x ∈ fwdNames g2 d ↔
      x ∈ fwdNames g d ∨ (x = t ∧ d = dep.service_name) := by
  obtain ⟨hm, rfl⟩ := addDependency_ok_elim h
  unfold fwdNames
  by_cases hd : d = dep.service_name
  · subst hd
    obtain ⟨l, hl⟩ := lookupA_isSome_of_mem_keys (m := g.edges)
      (by rw [hkeys]; exact hm)
    rw [lookupA_alAdjust_self, hl]
    show x ∈ setInsert l t ↔ _
    rw [mem_setInsert]
    simp
  · simp only [lookupA_alAdjust_other (fun he => hd he)]
    simp [hd]

lemma addDependency_fwd_nodup {g g2 : DependencyGraph} {t : String}
    {dep : Dependency} (h : addDependency g t dep = .ok g2)
    (hnd : ∀ d, (fwdNames g d).Nodup) : ∀ d, (fwdNames g2 d).Nodup := by
  obtain ⟨_, rfl⟩ := addDependency_ok_elim h
  intro d
  unfold fwdNames
  by_cases hd : d = dep.service_name
  · subst hd
    rw [lookupA_alAdjust_self]
    cases hlk : lookupA g.edges dep.service_name with
    | none => simp
    | some l =>
        show (setInsert l t).Nodup
        apply setInsert_nodup
        have := hnd dep.service_name
        unfold fwdNames at this
        rw [hlk] at this
        exact this
  · rw [lookupA_alAdjust_other (fun he => hd he)]
    exact hnd d

end Krill

namespace Krill

lemma addEntryDeps_nil {t : String} {g : DependencyGraph} :
    addEntryDeps t [] g = .ok g := rfl

lemma addEntryDeps_cons_ok {t : String} {dep : Dependency}
    {ds : List Dependency} {g g1 : DependencyGraph}
    (h1 : addDependency g t dep = .ok g1) :
    addEntryDeps t (dep :: ds) g = addEntryDeps t ds g1 := by
  unfold addEntryDeps
  rw [List.foldlM_cons, h1]
  rfl

lemma addEntryDeps_cons_error {t : String} {dep : Dependency}
    {ds : List Dependency} {g : DependencyGraph} {e : DagError}
    (h1 : addDependency g t dep = .error e) :
    addEntryDeps t (dep :: ds) g = .error e := by
  unfold addEntryDeps
  rw [List.foldlM_cons, h1]
  rfl

lemma addEntryDeps_preserves {t : String} :
    ∀ (deps : List Dependency) (g g2 : DependencyGraph),
    addEntryDeps t deps g = .ok g2 →
    g2.services = g.services ∧
    g2.edges.map Prod.fst = g.edges.map Prod.fst ∧
    g2.reverse_edges.map Prod.fst = g.reverse_edges.map Prod.fst := by
  intro deps
  induction deps with
  | nil =>
      intro g g2 h
      rw [addEntryDeps_nil] at h
      cases h
      exact ⟨rfl, rfl, rfl⟩
  | cons dep ds ih =>
      intro g g2 h
      cases h1 : addDependency g t dep with
      | error e => rw [addEntryDeps_cons_error h1] at h; cases h
      | ok g1 =>
          rw [addEntryDeps_cons_ok h1] at h
          obtain ⟨ha, hb, hc⟩ := ih g1 g2 h
          obtain ⟨hd, he, hf⟩ := addDependency_preserves h1
          exact ⟨ha.trans hd, hb.trans he, hc.trans hf⟩

lemma addEntryDeps_rev_self {t : String} :
    ∀ (deps : List Dependency) (g g2 : DependencyGraph),
    addEntryDeps t deps g = .ok g2 →
    lookupA g2.reverse_edges t =
      (lookupA g.reverse_edges t).map (fun l => l ++ deps) := by
  intro deps
  induction deps with
  | nil =>
      intro g g2 h
      rw [addEntryDeps_nil] at h
      cases h
      cases lookupA g.reverse_edges t <;> simp
  | cons dep ds ih =>
      intro g g2 h
      cases h1 : addDependency g t dep with
      | error e => rw [addEntryDeps_cons_error h1] at h; cases h
      | ok g1 =>
          rw [addEntryDeps_cons_ok h1] at h
          rw [ih g1 g2 h, addDependency_rev_self h1]
          cases lookupA g.reverse_edges t <;> simp

lemma addEntryDeps_rev_other {t s : String} (hs : s ≠ t) :
    ∀ (deps : List Dependency) (g g2 : DependencyGraph),
    addEntryDeps t deps g = .ok g2 →
    lookupA g2.reverse_edges s = lookupA g.reverse_edges s := by
  intro deps
  induction deps with
  | nil =>
      intro g g2 h
      rw [addEntryDeps_nil] at h
      cases h
      rfl
  | cons dep ds ih =>
      intro g g2 h
      cases h1 : addDependency g t dep with
      | error e => rw [addEntryDeps_cons_error h1] at h; cases h
      | ok g1 =>
          rw [addEntryDeps_cons_ok h1] at h
          rw [ih g1 g2 h, addDependency_rev_other h1 hs]

lemma addEntryDeps_fwd {t : String} :
    ∀ (deps : List Dependency) (g g2 : DependencyGraph),
    g.edges.map Prod.fst = g.services →
    addEntryDeps t deps g = .ok g2 →
    ∀ d x, x ∈ fwdNames g2 d ↔
      x ∈ fwdNames g d ∨
        (x = t ∧ d ∈ deps.map Dependency.service_name) := by
  intro deps
  induction deps with
  | nil =>
      intro g g2 _ h d x
      rw [addEntryDeps_nil] at h
      cases h
      simp
  | cons dep ds ih =>
      intro g g2 hkeys h d x
      cases h1 : addDependency g t dep with
      | error e => rw [addEntryDeps_cons_error h1] at h; cases h
      | ok g1 =>
          rw [addEntryDeps_cons_ok h1] at h
          have hkeys1 : g1.edges.map Prod.fst = g1.services := by
            obtain ⟨ha, hb, _⟩ := addDependency_preserves h1
            rw [ha, hb, hkeys]
          rw [ih g1 g2 hkeys1 h d x, addDependency_fwd hkeys h1 d x]
          simp only [List.map_cons, List.mem_cons]
          tauto

lemma addEntryDeps_fwd_nodup {t : String} :
    ∀ (deps : List Dependency) (g g2 : DependencyGraph),
    addEntryDeps t deps g = .ok g2 →
    (∀ d, (fwdNames g d).Nodup) → ∀ d, (fwdNames g2 d).Nodup := by
  intro deps
  induction deps with
  | nil =>
      intro g g2 h hnd
      rw [addEntryDeps_nil] at h
      cases h
      exact hnd
  | cons dep ds ih =>
      intro g g2 h hnd
      cases h1 : addDependency g t dep with
      | error e => rw [addEntryDeps_cons_error h1] at h; cases h
      | ok g1 =>
          rw [addEntryDeps_cons_ok h1] at h
          exact ih g1 g2 h (addDependency_fwd_nodup h1 hnd)

lemma addEntryDeps_dichotomy {t : String} :
    ∀ (deps : List Dependency) (g : DependencyGraph),
    (∃ g2, addEntryDeps t deps g = .ok g2) ∨
    (∃ n, addEntryDeps t deps g = .error (.UnknownService n)) := by
  intro deps
  induction deps with
  | nil => intro g; exact Or.inl ⟨g, addEntryDeps_nil⟩
  | cons dep ds ih =>
      intro g
      cases h1 : addDependency g t dep with
      | error e =>
          obtain ⟨he, _⟩ := addDependency_error_elim h1
          exact Or.inr ⟨dep.service_name,
            by rw [addEntryDeps_cons_error h1, he]⟩
      | ok g1 =>
          rcases ih g1 with ⟨g2, hg2⟩ | ⟨n, hn⟩
          · exact Or.inl ⟨g2, by rw [addEntryDeps_cons_ok h1]; exact hg2⟩
          · exact Or.inr ⟨n, by rw [addEntryDeps_cons_ok h1]; exact hn⟩

lemma addEntryDeps_ok_of_known {t : String} :
    ∀ (deps : List Dependency) (g : DependencyGraph),
    (∀ dep ∈ deps, dep.service_name ∈ g.services) →
    ∃ g2, addEntryDeps t deps g = .ok g2 := by
  intro deps
  induction deps with
  | nil => intro g _; exact ⟨g, addEntryDeps_nil⟩
  | cons dep ds ih =>
      intro g hknown
      cases h1 : addDependency g t dep with
      | error e =>
          obtain ⟨_, hm⟩ := addDependency_error_elim h1
          exact absurd (hknown dep (List.mem_cons_self _ _)) hm
      | ok g1 =>
          have hsv : g1.services = g.services :=
            (addDependency_preserves h1).1
          obtain ⟨g2, hg2⟩ := ih g1 (fun d hd =>
            hsv ▸ hknown d (List.mem_cons_of_mem _ hd))
          exact ⟨g2, by rw [addEntryDeps_cons_ok h1]; exact hg2⟩

lemma addEntryDeps_error_of_unknown {t : String} :
    ∀ (deps : List Dependency) (g : DependencyGraph),
    (∃ dep ∈ deps, dep.service_name ∉ g.services) →
    ∃ n, addEntryDeps t deps g = .error (.UnknownService n) := by
  intro deps
  induction deps with
  | nil => rintro g ⟨dep, hmem, _⟩; simp at hmem
  | cons dep ds ih =>
      rintro g ⟨d0, hmem, hunk⟩
      cases h1 : addDependency g t dep with
      | error e =>
          obtain ⟨he, _⟩ := addDependency_error_elim h1
          exact ⟨dep.service_name, by rw [addEntryDeps_cons_error h1, he]⟩
      | ok g1 =>
          have hsv : g1.services = g.services :=
            (addDependency_preserves h1).1
          rcases List.mem_cons.mp hmem with rfl | hmem2
          · obtain ⟨hk, _⟩ := addDependency_ok_elim h1
            exact absurd hk hunk
          · obtain ⟨n, hn⟩ := ih g1 ⟨d0, hmem2, hsv ▸ hunk⟩
            exact ⟨n, by rw [addEntryDeps_cons_ok h1]; exact hn⟩

end Krill

namespace Krill

lemma addAll_nil {g : DependencyGraph} : addAllDependencies [] g = .ok g := rfl

lemma addAll_cons_ok {e : String × List Dependency}
    {es : List (String × List Dependency)} {g g1 : DependencyGraph}
    (h1 : addEntryDeps e.1 e.2 g = .ok g1) :
    addAllDependencies (e :: es) g = addAllDependencies es g1 := by
  unfold addAllDependencies
  rw [List.foldlM_cons, h1]
  rfl

lemma addAll_cons_error {e : String × List Dependency}
    {es : List (String × List Dependency)} {g : DependencyGraph}
    {err : DagError} (h1 : addEntryDeps e.1 e.2 g = .error err) :
    addAllDependencies (e :: es) g = .error err := by
  unfold addAllDependencies
  rw [List.foldlM_cons, h1]
  rfl

lemma addAll_preserves :
    ∀ (es : List (String × List Dependency)) (g g2 : DependencyGraph),
    addAllDependencies es g = .ok g2 →
    g2.services = g.services ∧
    g2.edges.map Prod.fst = g.edges.map Prod.fst ∧
    g2.reverse_edges.map Prod.fst = g.reverse_edges.map Prod.fst := by
  intro es
  induction es with
  | nil =>
      intro g g2 h
      rw [addAll_nil] at h
      cases h
      exact ⟨rfl, rfl, rfl⟩
  | cons e es ih =>
      intro g g2 h
      cases h1 : addEntryDeps e.1 e.2 g with
      | error err => rw [addAll_cons_error h1] at h; cases h
      | ok g1 =>
          rw [addAll_cons_ok h1] at h
          obtain ⟨ha, hb, hc⟩ := ih g1 g2 h
          obtain ⟨hd, he, hf⟩ := addEntryDeps_preserves e.2 g g1 h1
          exact ⟨ha.trans hd, hb.trans he, hc.trans hf⟩

lemma addAll_rev_not_mem {s : String} :
    ∀ (es : List (String × List Dependency)) (g g2 : DependencyGraph),
    s ∉ es.map Prod.fst → addAllDependencies es g = .ok g2 →
    lookupA g2.reverse_edges s = lookupA g.reverse_edges s := by
  intro es
  induction es with
  | nil =>
      intro g g2 _ h
      rw [addAll_nil] at h
      cases h
      rfl
  | cons e es ih =>
      intro g g2 hs h
      rw [List.map_cons, List.mem_cons, not_or] at hs
      cases h1 : addEntryDeps e.1 e.2 g with
      | error err => rw [addAll_cons_error h1] at h; cases h
      | ok g1 =>
          rw [addAll_cons_ok h1] at h
          rw [ih g1 g2 hs.2 h, addEntryDeps_rev_other hs.1 e.2 g g1 h1]

lemma addAll_rev_mem :
    ∀ (es : List (String × List Dependency)) (g g2 : DependencyGraph)
      (s : String) (deps : List Dependency),
    (es.map Prod.fst).Nodup → (s, deps) ∈ es →
    addAllDependencies es g = .ok g2 →
    lookupA g2.reverse_edges s =
      (lookupA g.reverse_edges s).map (fun l => l ++ deps) := by
  intro es
  induction es with
  | nil => intro g g2 s deps _ hmem _; simp at hmem
  | cons e es ih =>
      intro g g2 s deps hnd hmem h
      rw [List.map_cons, List.nodup_cons] at hnd
      cases h1 : addEntryDeps e.1 e.2 g with
      | error err => rw [addAll_cons_error h1] at h; cases h
      | ok g1 =>
          rw [addAll_cons_ok h1] at h
          rcases List.mem_cons.mp hmem with he | hmem2
          · cases he
            have hnotmem : s ∉ es.map Prod.fst := hnd.1
            rw [addAll_rev_not_mem es g1 g2 hnotmem h]
            exact addEntryDeps_rev_self deps g g1 h1
          · have hst : s ≠ e.1 := by
              intro he2
              exact hnd.1 (he2 ▸ List.mem_map.mpr ⟨(s, deps), hmem2, rfl⟩)
            rw [ih g1 g2 s deps hnd.2 hmem2 h,
                addEntryDeps_rev_other hst e.2 g g1 h1]

lemma addAll_fwd :
    ∀ (es : List (String × List Dependency)) (g g2 : DependencyGraph),
    g.edges.map Prod.fst = g.services →
    addAllDependencies es g = .ok g2 →
    ∀ d x, x ∈ fwdNames g2 d ↔
      x ∈ fwdNames g d ∨
        ∃ e ∈ es, x = e.1 ∧ d ∈ e.2.map Dependency.service_name := by
  intro es
  induction es with
  | nil =>
      intro g g2 _ h d x
      rw [addAll_nil] at h
      cases h
      simp
  | cons e es ih =>
      intro g g2 hkeys h d x
      cases h1 : addEntryDeps e.1 e.2 g with
      | error err => rw [addAll_cons_error h1] at h; cases h
      | ok g1 =>
          rw [addAll_cons_ok h1] at h
          have hkeys1 : g1.edges.map Prod.fst = g1.services := by
            obtain ⟨ha, hb, _⟩ := addEntryDeps_preserves e.2 g g1 h1
            rw [ha, hb, hkeys]
          rw [ih g1 g2 hkeys1 h d x,
              addEntryDeps_fwd e.2 g g1 hkeys h1 d x]
          simp only [List.mem_cons]
          constructor
          · rintro ((hx | ⟨hxt, hd⟩) | ⟨e2, he2, hxe, hde⟩)
            · exact Or.inl hx
            · exact Or.inr ⟨e, Or.inl rfl, hxt, hd⟩
            · exact Or.inr ⟨e2, Or.inr he2, hxe, hde⟩
          · rintro (hx | ⟨e2, (rfl | he2), hxe, hde⟩)
            · exact Or.inl (Or.inl hx)
            · exact Or.inl (Or.inr ⟨hxe, hde⟩)
            · exact Or.inr ⟨e2, he2, hxe, hde⟩

lemma addAll_fwd_nodup :
    ∀ (es : List (String × List Dependency)) (g g2 : DependencyGraph),
    addAllDependencies es g = .ok g2 →
    (∀ d, (fwdNames g d).Nodup) → ∀ d, (fwdNames g2 d).Nodup := by
  intro es
  induction es with
  | nil =>
      intro g g2 h hnd
      rw [addAll_nil] at h
      cases h
      exact hnd
  | cons e es ih =>
      intro g g2 h hnd
      cases h1 : addEntryDeps e.1 e.2 g with
      | error err => rw [addAll_cons_error h1] at h; cases h
      | ok g1 =>
          rw [addAll_cons_ok h1] at h
          exact ih g1 g2 h (addEntryDeps_fwd_nodup e.2 g g1 h1 hnd)

lemma addAll_ok_of_known :
    ∀ (es : List (String × List Dependency)) (g : DependencyGraph),
    (∀ e ∈ es, ∀ dep ∈ e.2, dep.service_name ∈ g.services) →
    ∃ g2, addAllDependencies es g = .ok g2 := by
  intro es
  induction es with
  | nil => intro g _; exact ⟨g, addAll_nil⟩
  | cons e es ih =>
      intro g hknown
      obtain ⟨g1, hg1⟩ := addEntryDeps_ok_of_known e.2 g
        (fun dep hdep => hknown e (List.mem_cons_self _ _) dep hdep)
      have hsv : g1.services = g.services :=
        (addEntryDeps_preserves e.2 g g1 hg1).1
      obtain ⟨g2, hg2⟩ := ih g1 (fun e2 he2 dep hdep =>
        hsv ▸ hknown e2 (List.mem_cons_of_mem _ he2) dep hdep)
      exact ⟨g2, by rw [addAll_cons_ok hg1]; exact hg2⟩

lemma addAll_error_of_unknown :
    ∀ (es : List (String × List Dependency)) (g : DependencyGraph),
    (∃ e ∈ es, ∃ dep ∈ e.2, dep.service_name ∉ g.services) →
    ∃ n, addAllDependencies es g = .error (.UnknownService n) := by
  intro es
  induction es with
  | nil => rintro g ⟨e, hmem, _⟩; simp at hmem
  | cons e es ih =>
      rintro g ⟨e0, hmem, d0, hd0, hunk⟩
      rcases List.mem_cons.mp hmem with rfl | hmem2
      · rcases addEntryDeps_dichotomy e0.2 g with ⟨g1, hg1⟩ | ⟨n, hn⟩
        · have hsv : g1.services = g.services :=
            (addEntryDeps_preserves e0.2 g g1 hg1).1
          -- the unknown dep of this very entry must have failed: if the
          -- entry fold succeeded, every one of its deps was known
          exfalso
          revert hg1
          intro hg1
          -- derive a contradiction: fold over e0.2 cannot succeed with an
          -- unknown dep present
          obtain ⟨n, hn⟩ := addEntryDeps_error_of_unknown e0.2 g
            ⟨d0, hd0, hunk⟩
          rw [hg1] at hn
          cases hn
        · exact ⟨n, by rw [addAll_cons_error hn]⟩
      · cases h1 : addEntryDeps e.1 e.2 g with
        | error err =>
            rcases addEntryDeps_dichotomy (t := e.1) e.2 g with
              ⟨g1, hg1⟩ | ⟨n, hn⟩
            · rw [h1] at hg1; cases hg1
            · rw [h1] at hn
              cases hn
              exact ⟨n, addAll_cons_error h1⟩
        | ok g1 =>
            have hsv : g1.services = g.services :=
              (addEntryDeps_preserves e.2 g g1 h1).1
            obtain ⟨n, hn⟩ := ih g1 ⟨e0, hmem2, d0, hd0, hsv ▸ hunk⟩
            exact ⟨n, by rw [addAll_cons_ok h1]; exact hn⟩

end Krill

namespace Krill

lemma initGraph_rev {input : List (String × List Dependency)} {s : String} :
    lookupA (initGraph input).reverse_edges s =
      if s ∈ newServices input then some [] else none :=
  lookupA_initConst

lemma initGraph_edges {input : List (String × List Dependency)}
    {s : String} :
    lookupA (initGraph input).edges s =
      if s ∈ newServices input then some [] else none :=
  lookupA_initConst

lemma initGraph_fwd {input : List (String × List Dependency)} {d : String} :
    fwdNames (initGraph input) d = [] := by
  unfold fwdNames
  rw [initGraph_edges]
  by_cases hd : d ∈ newServices input <;> simp [hd]

lemma map_fst_const_pairs {α : Type} {v : α} :
    ∀ (l : List String), (l.map (fun k => (k, v))).map Prod.fst = l := by
  intro l
  induction l with
  | nil => rfl
  | cons a as ih => simp only [List.map_cons, ih]

lemma initGraph_keys {input : List (String × List Dependency)} :
    (initGraph input).edges.map Prod.fst = (initGraph input).services := by
  show ((newServices input).map _).map Prod.fst = newServices input
  exact map_fst_const_pairs _

lemma new_elim {input : List (String × List Dependency)}
    {g : DependencyGraph} (h : DependencyGraph.new input = .ok g) :
    addAllDependencies input (initGraph input) = .ok g ∧
    g.check_cycles = none := by
  unfold DependencyGraph.new at h
  cases hall : addAllDependencies input (initGraph input) with
  | error e =>
      rw [hall] at h
      replace h : (Except.error e : Except DagError DependencyGraph) =
        .ok g := h
      cases h
  | ok g1 =>
      rw [hall] at h
      replace h : (match g1.check_cycles with
        | some cycle => (Except.error (DagError.CircularDependency cycle) :
            Except DagError DependencyGraph)
        | none => Except.ok g1) = .ok g := h
      cases hc : g1.check_cycles with
      | some c =>
          rw [hc] at h
          cases h
      | none =>
          rw [hc] at h
          injection h with h2
          subst h2
          exact ⟨rfl, hc⟩

lemma new_services {input : List (String × List Dependency)}
    {g : DependencyGraph} (h : DependencyGraph.new input = .ok g) :
    g.services = newServices input :=
  (addAll_preserves input _ g (new_elim h).1).1

lemma new_rev {input : List (String × List Dependency)}
    {g : DependencyGraph} (hnd : (keysOf input).Nodup)
    (h : DependencyGraph.new input = .ok g) (s : String) :
    lookupA g.reverse_edges s =
      if s ∈ keysOf input then some (depsOf input s) else none := by
  obtain ⟨hall, _⟩ := new_elim h
  by_cases hs : s ∈ keysOf input
  · obtain ⟨deps, hdeps⟩ := lookupA_isSome_of_mem_keys (m := input) hs
    have hmem : (s, deps) ∈ input := lookupA_eq_some_mem hdeps
    rw [addAll_rev_mem input _ g s deps hnd hmem hall]
    rw [initGraph_rev, if_pos (mem_newServices.mpr hs)]
    rw [if_pos hs]
    unfold depsOf
    rw [hdeps]
    rfl
  · rw [addAll_rev_not_mem input _ g hs hall]
    rw [initGraph_rev, if_neg (fun hm => hs (mem_newServices.mp hm)),
        if_neg hs]

lemma new_revNames {input : List (String × List Dependency)}
    {g : DependencyGraph} (hnd : (keysOf input).Nodup)
    (h : DependencyGraph.new input = .ok g) (s : String) :
    revNames g s = depNamesOf input s := by
  unfold revNames depNamesOf
  rw [new_rev hnd h s]
  by_cases hs : s ∈ keysOf input
  · rw [if_pos hs]
    rfl
  · rw [if_neg hs]
    unfold depsOf
    rw [lookupA_isNone_of_not_mem hs]

lemma new_fwd {input : List (String × List Dependency)}
    {g : DependencyGraph} (hnd : (keysOf input).Nodup)
    (h : DependencyGraph.new input = .ok g) (d x : String) :
    x ∈ fwdNames g d ↔ x ∈ keysOf input ∧ d ∈ depNamesOf input x := by
  obtain ⟨hall, _⟩ := new_elim h
  rw [addAll_fwd input _ g initGraph_keys hall d x]
  rw [initGraph_fwd]
  simp only [List.not_mem_nil, false_or]
  constructor
  · rintro ⟨e, hmem, rfl, hd⟩
    refine ⟨List.mem_map.mpr ⟨e, hmem, rfl⟩, ?_⟩
    unfold depNamesOf depsOf
    rw [lookupA_eq_of_mem_nodup hnd (by exact hmem)]
    exact hd
  · rintro ⟨hx, hd⟩
    obtain ⟨deps, hdeps⟩ := lookupA_isSome_of_mem_keys (m := input) hx
    refine ⟨(x, deps), lookupA_eq_some_mem hdeps, rfl, ?_⟩
    unfold depNamesOf depsOf at hd
    rw [hdeps] at hd
    exact hd

lemma new_fwd_nodup {input : List (String × List Dependency)}
    {g : DependencyGraph} (h : DependencyGraph.new input = .ok g) (d : String) :
    (fwdNames g d).Nodup := by
  obtain ⟨hall, _⟩ := new_elim h
  exact addAll_fwd_nodup input _ g hall
    (fun d => by rw [initGraph_fwd]; exact List.nodup_nil) d

lemma new_error_unknown {input : List (String × List Dependency)}
    (h : ∃ e ∈ input, ∃ dep ∈ e.2, dep.service_name ∉ keysOf input) :
    ∃ n, DependencyGraph.new input = .error (.UnknownService n) := by
  obtain ⟨n, hn⟩ := addAll_error_of_unknown input (initGraph input)
    (by
      obtain ⟨e, hmem, dep, hdep, hunk⟩ := h
      exact ⟨e, hmem, dep, hdep, fun hm => hunk (mem_newServices.mp hm)⟩)
  refine ⟨n, ?_⟩
  unfold DependencyGraph.new
  rw [hn]
  rfl

lemma new_ok_or_cycle {input : List (String × List Dependency)}
    (h : ∀ e ∈ input, ∀ dep ∈ e.2, dep.service_name ∈ keysOf input) :
    (∃ g, DependencyGraph.new input = .ok g ∧ g.check_cycles = none) ∨
    (∃ g m, DependencyGraph.new input = .error (.CircularDependency m) ∧
      g.check_cycles = some m ∧
      addAllDependencies input (initGraph input) = .ok g) := by
  obtain ⟨g1, hg1⟩ := addAll_ok_of_known input (initGraph input)
    (fun e he dep hdep => mem_newServices.mpr (h e he dep hdep))
  cases hc : g1.check_cycles with
  | none =>
      left
      refine ⟨g1, ?_, hc⟩
      unfold DependencyGraph.new
      rw [hg1]
      show (match g1.check_cycles with
        | some cycle => (Except.error (DagError.CircularDependency cycle) :
            Except DagError DependencyGraph)
        | none => Except.ok g1) = .ok g1
      rw [hc]
  | some m =>
      right
      refine ⟨g1, m, ?_, hc, hg1⟩
      unfold DependencyGraph.new
      rw [hg1]
      show (match g1.check_cycles with
        | some cycle => (Except.error (DagError.CircularDependency cycle) :
            Except DagError DependencyGraph)
        | none => Except.ok g1) = .error (.CircularDependency m)
      rw [hc]

end Krill

namespace Krill

lemma length_filter_le_of_imp {p q : String → Bool}
    (h : ∀ z, q z = true → p z = true) :
    ∀ l : List String, (l.filter q).length ≤ (l.filter p).length := by
  intro l
  induction l with
  | nil => exact Nat.le_refl 0
  | cons a as ih =>
      simp only [List.filter_cons]
      by_cases hq : q a = true
      · rw [if_pos hq, if_pos (h a hq)]
        simpa using ih
      · rw [if_neg hq]
        by_cases hp : p a = true
        · rw [if_pos hp]
          exact Nat.le_trans ih (Nat.le_succ _)
        · rw [if_neg hp]
          exact ih

lemma budget_mono {vis vis2 : List String} (h : ∀ z ∈ vis, z ∈ vis2)
    (l : List String) :
    (l.filter (fun z => decide (z ∉ vis2))).length ≤
      (l.filter (fun z => decide (z ∉ vis))).length := by
  apply length_filter_le_of_imp
  intro z hz
  rw [decide_eq_true_eq] at hz ⊢
  intro hmem
  exact hz (h z hmem)

lemma budget_strict {vis : List String} {s : String} :
    ∀ {l : List String}, s ∈ l → s ∉ vis →
    (l.filter (fun z => decide (z ∉ setInsert vis s))).length <
      (l.filter (fun z => decide (z ∉ vis))).length := by
  intro l
  induction l with
  | nil => intro h _; simp at h
  | cons a as ih =>
      intro hs hv
      simp only [List.filter_cons]
      by_cases ha : a = s
      · subst ha
        rw [if_neg (by simp [mem_setInsert_self]),
            if_pos (by simpa using hv)]
        have hle := @budget_mono vis (setInsert vis a)
          (fun z hz => subset_setInsert hz) as
        simpa using Nat.lt_succ_of_le hle
      · have hs2 : s ∈ as := by
          rcases List.mem_cons.mp hs with he | he
          · exact absurd he.symm ha
          · exact he
        have harith : ∀ (b c : Nat), b < c →
            (if decide (a ∉ setInsert vis s) = true then b + 1 else b) <
            (if decide (a ∉ vis) = true then c + 1 else c) := by
          intro b c hbc
          have hiff : (a ∉ setInsert vis s) ↔ (a ∉ vis) := by
            rw [mem_setInsert]
            constructor
            · intro hno hmem
              exact hno (Or.inl hmem)
            · rintro hno (hmem | he)
              · exact hno hmem
              · exact ha he
          by_cases hcase : a ∉ vis
          · rw [if_pos (by simpa using hiff.mpr hcase),
                if_pos (by simpa using hcase)]
            omega
          · rw [if_neg (by simpa using fun hc => hcase (hiff.mp hc)),
                if_neg (by simpa using hcase)]
            exact hbc
        have := ih hs2 hv
        rw [apply_ite List.length, apply_ite List.length]
        simp only [List.length_cons]
        exact harith _ _ this

lemma revNames_subset_candidates {g : DependencyGraph} {s d : String}
    (h : d ∈ revNames g s) : d ∈ dfsCandidates g := by
  unfold revNames at h
  cases hlk : lookupA g.reverse_edges s with
  | none => rw [hlk] at h; simp at h
  | some deps =>
      rw [hlk] at h
      simp only [Option.getD_some] at h
      unfold dfsCandidates
      rw [List.mem_append, List.mem_flatMap]
      exact Or.inr ⟨(s, deps), lookupA_eq_some_mem hlk, h⟩

lemma services_subset_candidates {g : DependencyGraph} {s : String}
    (h : s ∈ g.services) : s ∈ dfsCandidates g := by
  unfold dfsCandidates
  rw [List.mem_append]
  exact Or.inl h

lemma safe_of_deps_safe {g : DependencyGraph} {s : String}
    (h : ∀ d ∈ revNames g s, Safe g d) : Safe g s := by
  intro w hrw hcyc
  rcases Relation.ReflTransGen.cases_head hrw with he | ⟨c, hc, hcw⟩
  · cases he
    obtain ⟨d, hd, hdw⟩ := Relation.TransGen.head'_iff.mp hcyc
    exact h d hd _ hdw hcyc
  · exact h c hc w hcw hcyc

end Krill

namespace Krill

lemma dfsVisit_none {s d : String} {vis rs : List String}
    {recur : String → List String → List String →
      Option String × List String × List String} :
    dfsVisit s recur (none, vis, rs) d =
      if d ∈ vis then
        if d ∈ rs then (some (s ++ " -> " ++ d), vis, rs)
        else (none, vis, rs)
      else recur d vis rs := rfl

lemma foldl_dfsVisit_some {s : String}
    {recur : String → List String → List String →
      Option String × List String × List String} :
    ∀ (l : List String) (c : String) (st : List String × List String),
    l.foldl (dfsVisit s recur) (some c, st) = (some c, st) := by
  intro l
  induction l with
  | nil => intro c st; rfl
  | cons a as ih => intro c st; rw [List.foldl_cons]; exact ih c st

lemma dfsCycle_succ {g : DependencyGraph} {fuel : Nat}
    {s : String} {vis rstack : List String} :
    dfsCycle g (fuel + 1) s vis rstack =
      match (revNames g s).foldl (dfsVisit s (dfsCycle g fuel))
          (none, setInsert vis s, setInsert rstack s) with
      | (some c, vis2, rs2) => (some c, vis2, rs2)
      | (none, vis2, rs2) => (none, vis2, rs2.erase s) := rfl

lemma dfsFold_main (g : DependencyGraph) (fuel : Nat) (s : String)
    (ihdfs : ∀ (t : String) (vis rstack : List String),
      t ∈ dfsCandidates g → t ∉ vis →
      ((dfsCandidates g).dedup.filter (fun z => decide (z ∉ vis))).length
        < fuel →
      (∀ r ∈ rstack, r ∈ vis) → rstack.Nodup →
      (∀ r ∈ rstack, Relation.ReflTransGen (DStep g) r t) →
      (∀ v ∈ vis, v ∈ rstack ∨ Safe g v) →
      (match dfsCycle g fuel t vis rstack with
       | (some _, _, _) => ∃ w, Relation.TransGen (DStep g) w w
       | (none, vis2, rs2) =>
           rs2 = rstack ∧ (∀ v ∈ vis, v ∈ vis2) ∧ t ∈ vis2 ∧
           (∀ v ∈ vis2, v ∈ rstack ∨ Safe g v))) :
    ∀ (ds : List String) (vis rs : List String),
      (∀ d ∈ ds, DStep g s d) →
      (∀ r ∈ rs, r ∈ vis) → rs.Nodup →
      (∀ r ∈ rs, Relation.ReflTransGen (DStep g) r s) →
      (∀ v ∈ vis, v ∈ rs ∨ Safe g v) →
      ((dfsCandidates g).dedup.filter (fun z => decide (z ∉ vis))).length
        < fuel →
      (match ds.foldl (dfsVisit s (dfsCycle g fuel)) (none, vis, rs) with
       | (some _, _, _) => ∃ w, Relation.TransGen (DStep g) w w
       | (none, vis2, rs2) =>
           rs2 = rs ∧ (∀ v ∈ vis, v ∈ vis2) ∧
           (∀ v ∈ vis2, v ∈ rs ∨ Safe g v) ∧ (∀ d ∈ ds, Safe g d)) := by
  intro ds
  induction ds with
  | nil =>
      intro vis rs _ _ _ _ hvinv _
      exact ⟨rfl, fun v hv => hv, hvinv,
        fun d hd => absurd hd (List.not_mem_nil d)⟩
  | cons d ds ih =>
      intro vis rs hds hsub hnd hpath hvinv hbud
      have hdstep : DStep g s d := hds d (List.mem_cons_self d ds)
      have hdstail : ∀ x ∈ ds, DStep g s x :=
        fun x hx => hds x (List.mem_cons_of_mem _ hx)
      rw [List.foldl_cons, dfsVisit_none]
      by_cases hdv : d ∈ vis
      · rw [if_pos hdv]
        by_cases hdr : d ∈ rs
        · rw [if_pos hdr, foldl_dfsVisit_some]
          exact ⟨d, Relation.TransGen.tail' (hpath d hdr) hdstep⟩
        · rw [if_neg hdr]
          have hres := ih vis rs hdstail hsub hnd hpath hvinv hbud
          rcases hfold : ds.foldl (dfsVisit s (dfsCycle g fuel))
              (none, vis, rs) with ⟨res, vis3, rs3⟩
          rw [hfold] at hres
          cases res with
          | some c => exact hres
          | none =>
              obtain ⟨hq1, hq2, hq3, hq4⟩ := hres
              refine ⟨hq1, hq2, hq3, ?_⟩
              intro x hx
              rcases List.mem_cons.mp hx with rfl | hx2
              · rcases hvinv x hdv with hxr | hsafe
                · exact absurd hxr hdr
                · exact hsafe
              · exact hq4 x hx2
      · rw [if_neg hdv]
        have hcand : d ∈ dfsCandidates g := revNames_subset_candidates hdstep
        have hpath2 : ∀ r ∈ rs, Relation.ReflTransGen (DStep g) r d :=
          fun r hr => (hpath r hr).tail hdstep
        have hcall := ihdfs d vis rs hcand hdv hbud hsub hnd hpath2 hvinv
        rcases hdfs : dfsCycle g fuel d vis rs with ⟨res, vis2, rs2⟩
        rw [hdfs] at hcall
        cases res with
        | some c =>
            rw [foldl_dfsVisit_some]
            exact hcall
        | none =>
            obtain ⟨hr1, hr2, hr3, hr4⟩ := hcall
            subst hr1
            have hsafe_d : Safe g d := by
              rcases hr4 d hr3 with hdr2 | hsafe
              · exact absurd (hsub d hdr2) hdv
              · exact hsafe
            have hbud2 : ((dfsCandidates g).dedup.filter
                (fun z => decide (z ∉ vis2))).length < fuel :=
              Nat.lt_of_le_of_lt (budget_mono hr2 _) hbud
            have hres := ih vis2 rs2 hdstail
              (fun r hr => hr2 _ (hsub r hr)) hnd hpath hr4 hbud2
            rcases hfold2 : ds.foldl (dfsVisit s (dfsCycle g fuel))
                (none, vis2, rs2) with ⟨res2, vis3, rs3⟩
            rw [hfold2] at hres
            cases res2 with
            | some c => exact hres
            | none =>
                obtain ⟨hq1, hq2, hq3, hq4⟩ := hres
                refine ⟨hq1, fun v hv => hq2 v (hr2 v hv), hq3, ?_⟩
                intro x hx
                rcases List.mem_cons.mp hx with rfl | hx2
                · exact hsafe_d
                · exact hq4 x hx2

lemma dfsCycle_main (g : DependencyGraph) :
    ∀ (fuel : Nat) (s : String) (vis rstack : List String),
      s ∈ dfsCandidates g → s ∉ vis →
      ((dfsCandidates g).dedup.filter (fun z => decide (z ∉ vis))).length
        < fuel →
      (∀ r ∈ rstack, r ∈ vis) → rstack.Nodup →
      (∀ r ∈ rstack, Relation.ReflTransGen (DStep g) r s) →
      (∀ v ∈ vis, v ∈ rstack ∨ Safe g v) →
      (match dfsCycle g fuel s vis rstack with
       | (some _, _, _) => ∃ w, Relation.TransGen (DStep g) w w
       | (none, vis2, rs2) =>
           rs2 = rstack ∧ (∀ v ∈ vis, v ∈ vis2) ∧ s ∈ vis2 ∧
           (∀ v ∈ vis2, v ∈ rstack ∨ Safe g v)) := by
  intro fuel
  induction fuel with
  | zero =>
      intro s vis rstack _ _ hbud _ _ _ _
      exact absurd hbud (Nat.not_lt_zero _)
  | succ fuel ih =>
      intro s vis rstack hcand hsv hbud hrsub hrnd hrpath hvinv
      have hsrs : s ∉ rstack := fun hr => hsv (hrsub s hr)
      have hsub1 : ∀ r ∈ setInsert rstack s, r ∈ setInsert vis s := by
        intro r hr
        rcases mem_setInsert.mp hr with h | h
        · exact subset_setInsert (hrsub r h)
        · exact h ▸ mem_setInsert_self
      have hpath1 : ∀ r ∈ setInsert rstack s,
          Relation.ReflTransGen (DStep g) r s := by
        intro r hr
        rcases mem_setInsert.mp hr with h | h
        · exact hrpath r h
        · exact h ▸ Relation.ReflTransGen.refl
      have hvinv1 : ∀ v ∈ setInsert vis s,
          v ∈ setInsert rstack s ∨ Safe g v := by
        intro v hv
        rcases mem_setInsert.mp hv with h | h
        · rcases hvinv v h with h2 | h2
          · exact Or.inl (subset_setInsert h2)
          · exact Or.inr h2
        · exact Or.inl (h ▸ mem_setInsert_self)
      have hbud1 : ((dfsCandidates g).dedup.filter
          (fun z => decide (z ∉ setInsert vis s))).length < fuel := by
        have h1 := budget_strict (List.mem_dedup.mpr hcand) hsv
        omega
      have hfold := dfsFold_main g fuel s ih (revNames g s)
        (setInsert vis s) (setInsert rstack s)
        (fun d hd => hd) hsub1 (setInsert_nodup hrnd) hpath1 hvinv1 hbud1
      rw [dfsCycle_succ]
      rcases hf : (revNames g s).foldl (dfsVisit s (dfsCycle g fuel))
          (none, setInsert vis s, setInsert rstack s) with ⟨res, vis2, rs2⟩
      rw [hf] at hfold
      cases res with
      | some c => exact hfold
      | none =>
          obtain ⟨hr1, hr2, hr3, hr4⟩ := hfold
          subst hr1
          have hsafe_s : Safe g s := safe_of_deps_safe hr4
          have herase : (setInsert rstack s).erase s = rstack := by
            unfold setInsert
            rw [if_neg hsrs]
            exact erase_append_self hsrs
          refine ⟨herase, fun v hv => hr2 v (subset_setInsert hv),
            hr2 s mem_setInsert_self, ?_⟩
          intro v hv
          rcases hr3 v hv with hvr | hsafe
          · rcases mem_setInsert.mp hvr with h | h
            · exact Or.inl h
            · exact Or.inr (h ▸ hsafe_s)
          · exact Or.inr hsafe

end Krill

namespace Krill

lemma checkLoop_main (g : DependencyGraph) :
    ∀ (ss : List String) (vis : List String),
      (∀ t ∈ ss, t ∈ dfsCandidates g) →
      (∀ v ∈ vis, Safe g v) →
      (match checkCyclesLoop g ss vis [] with
       | some _ => ∃ w, Relation.TransGen (DStep g) w w
       | none => ∀ t ∈ ss, Safe g t) := by
  intro ss
  induction ss with
  | nil =>
      intro vis _ _ t ht
      exact absurd ht (List.not_mem_nil t)
  | cons s ss ih =>
      intro vis hss hvis
      have hsstail : ∀ t ∈ ss, t ∈ dfsCandidates g :=
        fun t ht => hss t (List.mem_cons_of_mem _ ht)
      by_cases hsv : s ∈ vis
      · rw [show checkCyclesLoop g (s :: ss) vis [] =
            checkCyclesLoop g ss vis [] by simp [checkCyclesLoop, hsv]]
        have hres := ih vis hsstail hvis
        cases hc : checkCyclesLoop g ss vis [] with
        | some c => rw [hc] at hres; exact hres
        | none =>
            rw [hc] at hres
            intro t ht
            rcases List.mem_cons.mp ht with rfl | ht2
            · exact hvis t hsv
            · exact hres t ht2
      · have hbud : ((dfsCandidates g).dedup.filter
            (fun z => decide (z ∉ vis))).length < dfsFuel g := by
          have h1 : ((dfsCandidates g).dedup.filter
              (fun z => decide (z ∉ vis))).length ≤
                (dfsCandidates g).dedup.length :=
            (List.filter_sublist _).length_le
          have h2 : (dfsCandidates g).dedup.length ≤
              (dfsCandidates g).length :=
            (List.dedup_sublist _).length_le
          unfold dfsFuel
          omega
        have hcall := dfsCycle_main g (dfsFuel g) s vis []
          (hss s (List.mem_cons_self _ _)) hsv hbud
          (fun r hr => absurd hr (List.not_mem_nil r)) List.nodup_nil
          (fun r hr => absurd hr (List.not_mem_nil r))
          (fun v hv => Or.inr (hvis v hv))
        rcases hd : dfsCycle g (dfsFuel g) s vis [] with ⟨res, vis2, rs2⟩
        rw [hd] at hcall
        cases res with
        | some c =>
            rw [show checkCyclesLoop g (s :: ss) vis [] = some c by
              simp [checkCyclesLoop, hsv, hd]]
            exact hcall
        | none =>
            obtain ⟨hr1, hr2, hr3, hr4⟩ := hcall
            subst hr1
            rw [show checkCyclesLoop g (s :: ss) vis [] =
                checkCyclesLoop g ss vis2 [] by
              simp [checkCyclesLoop, hsv, hd]]
            have hvis2 : ∀ v ∈ vis2, Safe g v := by
              intro v hv
              rcases hr4 v hv with hvr | hsafe
              · exact absurd hvr (List.not_mem_nil v)
              · exact hsafe
            have hres := ih vis2 hsstail hvis2
            cases hc : checkCyclesLoop g ss vis2 [] with
            | some c => rw [hc] at hres; exact hres
            | none =>
                rw [hc] at hres
                intro t ht
                rcases List.mem_cons.mp ht with rfl | ht2
                · exact hvis2 t hr3
                · exact hres t ht2

lemma check_cycles_none_safe {g : DependencyGraph}
    (h : g.check_cycles = none) : ∀ s ∈ g.services, Safe g s := by
  have hmain := checkLoop_main g g.services []
    (fun t ht => services_subset_candidates ht)
    (fun v hv => absurd hv (List.not_mem_nil v))
  unfold DependencyGraph.check_cycles at h
  rw [h] at hmain
  exact hmain

lemma check_cycles_none_acyclic {g : DependencyGraph}
    (hkeys : g.reverse_edges.map Prod.fst = g.services)
    (h : g.check_cycles = none) :
    ¬ ∃ w, Relation.TransGen (DStep g) w w := by
  rintro ⟨w, hw⟩
  obtain ⟨d, hd⟩ := transGen_exists_first hw
  have hwkey : w ∈ g.services := by
    unfold DStep revNames at hd
    cases hlk : lookupA g.reverse_edges w with
    | none => rw [hlk] at hd; simp at hd
    | some deps => exact hkeys ▸ lookupA_mem_keys hlk
  exact check_cycles_none_safe h w hwkey w Relation.ReflTransGen.refl hw

lemma check_cycles_some_cycle {g : DependencyGraph} {c : String}
    (h : g.check_cycles = some c) :
    ∃ w, Relation.TransGen (DStep g) w w := by
  have hmain := checkLoop_main g g.services []
    (fun t ht => services_subset_candidates ht)
    (fun v hv => absurd hv (List.not_mem_nil v))
  unfold DependencyGraph.check_cycles at h
  rw [h] at hmain
  exact hmain

end Krill

namespace Krill

lemma built_rev {input : List (String × List Dependency)}
    {g : DependencyGraph} (hnd : (keysOf input).Nodup)
    (hall : addAllDependencies input (initGraph input) = .ok g) (s : String) :
    lookupA g.reverse_edges s =
      if s ∈ keysOf input then some (depsOf input s) else none := by
  by_cases hs : s ∈ keysOf input
  · obtain ⟨deps, hdeps⟩ := lookupA_isSome_of_mem_keys (m := input) hs
    have hmem : (s, deps) ∈ input := lookupA_eq_some_mem hdeps
    rw [addAll_rev_mem input _ g s deps hnd hmem hall]
    rw [initGraph_rev, if_pos (mem_newServices.mpr hs)]
    rw [if_pos hs]
    unfold depsOf
    rw [hdeps]
    rfl
  · rw [addAll_rev_not_mem input _ g hs hall]
    rw [initGraph_rev, if_neg (fun hm => hs (mem_newServices.mp hm)),
        if_neg hs]

lemma built_revNames {input : List (String × List Dependency)}
    {g : DependencyGraph} (hnd : (keysOf input).Nodup)
    (hall : addAllDependencies input (initGraph input) = .ok g) (s : String) :
    revNames g s = depNamesOf input s := by
  unfold revNames depNamesOf
  rw [built_rev hnd hall s]
  by_cases hs : s ∈ keysOf input
  · rw [if_pos hs]
    rfl
  · rw [if_neg hs]
    unfold depsOf
    rw [lookupA_isNone_of_not_mem hs]

lemma built_rev_keys {input : List (String × List Dependency)}
    {g : DependencyGraph}
    (hall : addAllDependencies input (initGraph input) = .ok g) :
    g.reverse_edges.map Prod.fst = g.services := by
  obtain ⟨ha, _, hc⟩ := addAll_preserves input _ g hall
  rw [ha, hc]
  exact map_fst_const_pairs _

lemma built_cycle_transfer {input : List (String × List Dependency)}
    {g : DependencyGraph} (hnd : (keysOf input).Nodup)
    (hall : addAllDependencies input (initGraph input) = .ok g) :
    (∃ s, Relation.TransGen (DepStep input) s s) ↔
      (∃ s, Relation.TransGen (DStep g) s s) := by
  have hpt : ∀ a b, DepStep input a b ↔ DStep g a b := by
    intro a b
    unfold DepStep DStep
    rw [built_revNames hnd hall a]
  constructor
  · rintro ⟨s, hs⟩
    exact ⟨s, hs.mono (fun a b h => (hpt a b).mp h)⟩
  · rintro ⟨s, hs⟩
    exact ⟨s, hs.mono (fun a b h => (hpt a b).mpr h)⟩

/-- Claim C5 counterexample: an input whose dependency relation contains a
directed cycle (a and b depend on each other) but which also declares an
unknown dependency target does NOT get the circular-dependency error:
DependencyGraph::new returns the unknown-service error, because the
unknown check runs during edge building, before the cycle check. -/
theorem claim_C5_counterexample :
    (∃ s, Relation.TransGen (DepStep inputCycleUnknown) s s) ∧
    DependencyGraph.new inputCycleUnknown =
      .error (.UnknownService "x") := by
  constructor
  · exact ⟨"a", Relation.TransGen.head
      (show DepStep inputCycleUnknown "a" "b" by decide)
      (Relation.TransGen.single
        (show DepStep inputCycleUnknown "b" "a" by decide))⟩
  · rfl

/-- Claim C5 as amended: the unknown-service check takes precedence.
DependencyGraph::new returns the unknown-service error whenever some
declared dependency target is not a key of the services map; if every
target is a key, it returns the circular-dependency error exactly when
the dependency relation has a directed cycle, and succeeds exactly when
it is acyclic. -/
theorem claim_C5_new_validation
    (input : List (String × List Dependency))
    (hnd : (keysOf input).Nodup) :
    ((∃ e ∈ input, ∃ dep ∈ e.2, dep.service_name ∉ keysOf input) →
        ∃ name, DependencyGraph.new input = .error (.UnknownService name)) ∧
    ((∀ e ∈ input, ∀ dep ∈ e.2, dep.service_name ∈ keysOf input) →
      (∃ s, Relation.TransGen (DepStep input) s s) →
        ∃ msg, DependencyGraph.new input =
          .error (.CircularDependency msg)) ∧
    ((∀ e ∈ input, ∀ dep ∈ e.2, dep.service_name ∈ keysOf input) →
      (¬ ∃ s, Relation.TransGen (DepStep input) s s) →
        ∃ g, DependencyGraph.new input = .ok g) := by
  refine ⟨new_error_unknown, ?_, ?_⟩
  · intro hknown hcyc
    rcases new_ok_or_cycle hknown with ⟨g, hok, hchk⟩ | ⟨g, m, herr, _, _⟩
    · exfalso
      obtain ⟨hall, _⟩ := new_elim hok
      exact check_cycles_none_acyclic (built_rev_keys hall) hchk
        ((built_cycle_transfer hnd hall).mp hcyc)
    · exact ⟨m, herr⟩
  · intro hknown hacyc
    rcases new_ok_or_cycle hknown with ⟨g, hok, _⟩ | ⟨g, m, _, hchk, hall⟩
    · exact ⟨g, hok⟩
    · exact absurd ((built_cycle_transfer hnd hall).mpr
        (check_cycles_some_cycle hchk)) hacyc

/-- Claim C5 amended witness: the three behaviours at concrete inputs: an
unknown target is rejected, a pure two-cycle is rejected as circular, and
a linear acyclic input builds successfully. -/
theorem claim_C5_new_validation_witness :
    (∃ name, DependencyGraph.new inputUnknown =
      .error (.UnknownService name)) ∧
    (∃ msg, DependencyGraph.new inputCycle =
      .error (.CircularDependency msg)) ∧
    (∃ g, DependencyGraph.new inputLinear = .ok g) := by
  refine ⟨?_, ?_, ?_⟩
  · exact (claim_C5_new_validation inputUnknown (by decide)).1
      ⟨("a", [.Simple "zzz"]), by decide, .Simple "zzz", by decide, by decide⟩
  · exact (claim_C5_new_validation inputCycle (by decide)).2.1 (by decide)
      ⟨"a", Relation.TransGen.head
        (show DepStep inputCycle "a" "b" by decide)
        (Relation.TransGen.single
          (show DepStep inputCycle "b" "a" by decide))⟩
  · exact (claim_C5_new_validation inputLinear (by decide)).2.2 (by decide)
      (fun hcyc => absurd (specHasCycle_iff.mpr hcyc) (by decide))

end Krill

namespace Krill

lemma fwdNames_subset_cascadeCandidates {g : DependencyGraph} {d y : String}
    (h : y ∈ fwdNames g d) : y ∈ cascadeCandidates g := by
  unfold fwdNames at h
  cases hlk : lookupA g.edges d with
  | none => rw [hlk] at h; simp at h
  | some l =>
      rw [hlk] at h
      simp only [Option.getD_some] at h
      unfold cascadeCandidates
      rw [List.mem_dedup, List.mem_flatMap]
      exact ⟨(d, l), lookupA_eq_some_mem hlk, h⟩

lemma cascadeFold_spec :
    ∀ (ds q ts : List String),
    (∀ y, y ∈ (ds.foldl cascadeStep (q, ts)).2 ↔ y ∈ ts ∨ y ∈ ds) ∧
    (∀ y, y ∈ (ds.foldl cascadeStep (q, ts)).1 ↔
      y ∈ q ∨ (y ∈ ds ∧ y ∉ ts)) ∧
    ((ds.foldl cascadeStep (q, ts)).1.length + ts.length =
      q.length + (ds.foldl cascadeStep (q, ts)).2.length) ∧
    (ts.Nodup → (ds.foldl cascadeStep (q, ts)).2.Nodup) := by
  intro ds
  induction ds with
  | nil =>
      intro q ts
      simp only [List.foldl_nil]
      exact ⟨fun y => by simp, fun y => by simp, trivial, fun h => h⟩
  | cons d ds ih =>
      intro q ts
      rw [List.foldl_cons]
      by_cases hd : d ∈ ts
      · rw [show cascadeStep (q, ts) d = (q, ts) by
            simp [cascadeStep, hd]]
        obtain ⟨h1, h2, h3, h4⟩ := ih q ts
        refine ⟨?_, ?_, h3, h4⟩
        · intro y
          rw [h1 y]
          constructor
          · rintro (hy | hy)
            · exact Or.inl hy
            · exact Or.inr (List.mem_cons_of_mem _ hy)
          · rintro (hy | hy)
            · exact Or.inl hy
            · rcases List.mem_cons.mp hy with rfl | hy2
              · exact Or.inl hd
              · exact Or.inr hy2
        · intro y
          rw [h2 y]
          constructor
          · rintro (hy | ⟨hy1, hy2⟩)
            · exact Or.inl hy
            · exact Or.inr ⟨List.mem_cons_of_mem _ hy1, hy2⟩
          · rintro (hy | ⟨hy1, hy2⟩)
            · exact Or.inl hy
            · rcases List.mem_cons.mp hy1 with rfl | hy3
              · exact absurd hd hy2
              · exact Or.inr ⟨hy3, hy2⟩
      · rw [show cascadeStep (q, ts) d = (q ++ [d], ts ++ [d]) by
            simp [cascadeStep, hd]]
        obtain ⟨h1, h2, h3, h4⟩ := ih (q ++ [d]) (ts ++ [d])
        refine ⟨?_, ?_, ?_, ?_⟩
        · intro y
          rw [h1 y]
          simp only [List.mem_append, List.mem_singleton, List.mem_cons]
          tauto
        · intro y
          rw [h2 y]
          simp only [List.mem_append, List.mem_singleton, List.mem_cons]
          by_cases hyd : y = d
          · subst hyd
            simp [hd]
          · simp only [hyd, or_false, false_or]
            tauto
        · simp only [List.length_append, List.length_singleton] at h3 ⊢
          omega
        · intro hnd
          apply h4
          refine List.Nodup.append hnd (List.nodup_singleton d) ?_
          intro a ha hb
          rw [List.mem_singleton] at hb
          exact hd (hb ▸ ha)

lemma cascadeLoop_sound {g : DependencyGraph} {x : String} :
    ∀ (fuel : Nat) (q ts : List String),
    (∀ y ∈ ts, Relation.TransGen (FwdStep g) x y) →
    (∀ z ∈ q, Relation.ReflTransGen (FwdStep g) x z) →
    ∀ y ∈ cascadeLoop g fuel q ts, Relation.TransGen (FwdStep g) x y := by
  intro fuel
  induction fuel with
  | zero => intro q ts hts _ y hy; exact hts y hy
  | succ fuel ih =>
      intro q ts hts hq y hy
      match q with
      | [] => exact hts y hy
      | s :: rest =>
          obtain ⟨h1, h2, _, _⟩ := cascadeFold_spec (fwdNames g s) rest ts
          have hxs : Relation.ReflTransGen (FwdStep g) x s :=
            hq s (List.mem_cons_self _ _)
          refine ih _ _ ?_ ?_ y hy
          · intro z hz
            rcases (h1 z).mp hz with hz2 | hz2
            · exact hts z hz2
            · exact Relation.TransGen.tail' hxs hz2
          · intro z hz
            rcases (h2 z).mp hz with hz2 | ⟨hz2, _⟩
            · exact hq z (List.mem_cons_of_mem _ hz2)
            · exact hxs.tail hz2

lemma cascadeLoop_complete {g : DependencyGraph} :
    ∀ (fuel : Nat) (q ts : List String),
    ts.Nodup → (∀ y ∈ ts, y ∈ cascadeCandidates g) →
    q.length + (cascadeCandidates g).length < fuel + ts.length →
    (∀ z ∈ ts, z ∈ q ∨ (∀ w ∈ fwdNames g z, w ∈ ts)) →
    (∀ z ∈ ts, z ∈ cascadeLoop g fuel q ts) ∧
    (∀ z ∈ cascadeLoop g fuel q ts, ∀ w ∈ fwdNames g z,
      w ∈ cascadeLoop g fuel q ts) ∧
    (∀ z ∈ q, ∀ w ∈ fwdNames g z, w ∈ cascadeLoop g fuel q ts) := by
  intro fuel
  induction fuel with
  | zero =>
      intro q ts hnd hsub hbud _
      have h1 := nodup_length_le_dedup hnd hsub
      have h2 : (cascadeCandidates g).dedup.length ≤
          (cascadeCandidates g).length := (List.dedup_sublist _).length_le
      omega
  | succ fuel ih =>
      intro q ts hnd hsub hbud hJ
      match q with
      | [] =>
          refine ⟨fun z hz => hz, ?_, fun z hz => absurd hz (by simp)⟩
          intro z hz w hw
          rcases hJ z hz with hz2 | hz2
          · exact absurd hz2 (by simp)
          · exact hz2 w hw
      | s :: rest =>
          obtain ⟨h1, h2, h3, h4⟩ := cascadeFold_spec (fwdNames g s) rest ts
          rcases hst : (fwdNames g s).foldl cascadeStep (rest, ts) with
            ⟨q2, ts2⟩
          rw [hst] at h1 h2 h3 h4
          simp only at h1 h2 h3 h4
          have hts2nd : ts2.Nodup := h4 hnd
          have hts2sub : ∀ y ∈ ts2, y ∈ cascadeCandidates g := by
            intro y hy
            rcases (h1 y).mp hy with hy2 | hy2
            · exact hsub y hy2
            · exact fwdNames_subset_cascadeCandidates hy2
          have hbud2 : q2.length + (cascadeCandidates g).length <
              fuel + ts2.length := by
            simp only [List.length_cons] at hbud
            omega
          have hJ2 : ∀ z ∈ ts2, z ∈ q2 ∨
              (∀ w ∈ fwdNames g z, w ∈ ts2) := by
            intro z hz
            by_cases hzq : z ∈ q2
            · exact Or.inl hzq
            · right
              rcases (h1 z).mp hz with hz2 | hz2
              · rcases hJ z hz2 with hz3 | hz3
                · rcases List.mem_cons.mp hz3 with rfl | hz4
                  · intro w hw
                    exact (h1 w).mpr (Or.inr hw)
                  · exact absurd ((h2 z).mpr (Or.inl hz4)) hzq
                · intro w hw
                  exact (h1 w).mpr (Or.inl (hz3 w hw))
              · by_cases hzts : z ∈ ts
                · rcases hJ z hzts with hz3 | hz3
                  · rcases List.mem_cons.mp hz3 with rfl | hz4
                    · intro w hw
                      exact (h1 w).mpr (Or.inr hw)
                    · exact absurd ((h2 z).mpr (Or.inl hz4)) hzq
                  · intro w hw
                    exact (h1 w).mpr (Or.inl (hz3 w hw))
                · exact absurd ((h2 z).mpr (Or.inr ⟨hz2, hzts⟩)) hzq
          obtain ⟨ih1, ih2, ih3⟩ := ih q2 ts2 hts2nd hts2sub hbud2 hJ2
          have hred : cascadeLoop g (fuel + 1) (s :: rest) ts =
              cascadeLoop g fuel q2 ts2 := by
            show cascadeLoop g fuel
              ((fwdNames g s).foldl cascadeStep (rest, ts)).1
              ((fwdNames g s).foldl cascadeStep (rest, ts)).2 =
                cascadeLoop g fuel q2 ts2
            rw [hst]
          rw [hred]
          refine ⟨?_, ih2, ?_⟩
          · intro z hz
            exact ih1 z ((h1 z).mpr (Or.inl hz))
          · intro z hz w hw
            rcases List.mem_cons.mp hz with rfl | hz2
            · exact ih1 w ((h1 w).mpr (Or.inr hw))
            · exact ih3 z ((h2 z).mpr (Or.inl hz2)) w hw

lemma cascade_failure_iff {g : DependencyGraph} {x y : String} :
    y ∈ g.cascade_failure x ↔ Relation.TransGen (FwdStep g) x y := by
  constructor
  · intro h
    exact cascadeLoop_sound (cascadeFuel g) [x] []
      (fun z hz => absurd hz (List.not_mem_nil z))
      (fun z hz => by
        rcases List.mem_singleton.mp hz with rfl
        exact Relation.ReflTransGen.refl) y h
  · intro h
    obtain ⟨_, hclosed, hqueue⟩ := cascadeLoop_complete (g := g)
      (cascadeFuel g) [x] [] List.nodup_nil
      (fun z hz => absurd hz (List.not_mem_nil z))
      (by simp only [List.length_singleton, List.length_nil, cascadeFuel]
          omega)
      (fun z hz => absurd hz (List.not_mem_nil z))
    induction h with
    | single hstep => exact hqueue x (List.mem_singleton_self x) _ hstep
    | tail _ hstep ihy => exact hclosed _ ihy _ hstep

end Krill

namespace Krill

/-- Claim C4: for every successfully built dependency graph and every
service x in it, cascade_failure(x) is exactly the set of services
reachable from x by one or more forward (dependent) edges, and x itself
is not in the result (the build's cycle check makes x unreachable from
itself). -/
theorem claim_C4_cascade_closure
    (input : List (String × List Dependency)) (g : DependencyGraph)
    (x : String) (hnd : (keysOf input).Nodup)
    (hok : DependencyGraph.new input = .ok g) (hx : x ∈ g.services) :
    (∀ y, y ∈ g.cascade_failure x ↔
      Relation.TransGen (FwdStep g) x y) ∧
    x ∉ g.cascade_failure x := by
  refine ⟨fun y => cascade_failure_iff, ?_⟩
  intro hmem
  have hcycF : Relation.TransGen (FwdStep g) x x :=
    cascade_failure_iff.mp hmem
  obtain ⟨hall, hchk⟩ := new_elim hok
  have hmono : ∀ a b, FwdStep g a b → Function.swap (DStep g) a b := by
    intro a b hab
    have h1 := (new_fwd hnd hok a b).mp hab
    show DStep g b a
    unfold DStep
    rw [new_revNames hnd hok b]
    exact h1.2
  have hcycD : Relation.TransGen (DStep g) x x :=
    Relation.transGen_swap.mp (hcycF.mono hmono)
  exact check_cycles_none_acyclic (built_rev_keys hall) hchk ⟨x, hcycD⟩

/-- Claim C4 witness: the cascade closure evaluated on the concrete
diamond graph: a is not in its own cascade set, and d (a transitive
dependent through b) is in it exactly when it is forward-reachable. -/
theorem claim_C4_cascade_closure_witness :
    ("a" ∉ builtDiamond.cascade_failure "a") ∧
    ("d" ∈ builtDiamond.cascade_failure "a" ↔
      Relation.TransGen (FwdStep builtDiamond) "a" "d") := by
  have h := claim_C4_cascade_closure inputDiamond builtDiamond "a"
    (by decide) (by rfl) (by decide)
  exact ⟨h.2, h.1 "d"⟩

end Krill

namespace Krill

lemma mem_of_nodup_subset_card {l1 l2 : List String} (hnd : l1.Nodup)
    (hsub : ∀ z ∈ l1, z ∈ l2) (hlen : l2.dedup.length ≤ l1.length) :
    ∀ z ∈ l2, z ∈ l1 := by
  have h1 : l1.toFinset ⊆ l2.toFinset := by
    intro z hz
    rw [List.mem_toFinset] at hz ⊢
    exact hsub z hz
  have h2 : l2.toFinset.card ≤ l1.toFinset.card := by
    rw [List.card_toFinset, List.toFinset_card_of_nodup hnd]
    exact hlen
  have h3 : l1.toFinset = l2.toFinset :=
    Finset.eq_of_subset_of_card_le h1 h2
  intro z hz
  have : z ∈ l2.toFinset := List.mem_toFinset.mpr hz
  rw [← h3] at this
  exact List.mem_toFinset.mp this

lemma revNames_length {g : DependencyGraph} {s : String} :
    (revNames g s).length = ((lookupA g.reverse_edges s).getD []).length :=
  List.length_map _ _

lemma lookupA_map_pair {α : Type} {f : String → α} :
    ∀ (l : List String) (t : String),
    lookupA (l.map (fun s => (s, f s))) t =
      if t ∈ l then some (f t) else none := by
  intro l
  induction l with
  | nil => intro t; rfl
  | cons a as ih =>
      intro t
      simp only [List.map_cons]
      by_cases ha : a = t
      · subst ha
        simp [lookupA]
      · rw [show lookupA ((a, f a) :: as.map (fun s => (s, f s))) t =
              lookupA (as.map (fun s => (s, f s))) t by simp [lookupA, ha]]
        rw [ih t]
        by_cases ht : t ∈ as
        · rw [if_pos ht, if_pos (List.mem_cons.mpr (Or.inr ht))]
        · rw [if_neg ht, if_neg ?_]
          intro hmem
          rcases List.mem_cons.mp hmem with he | he
          · exact ha he.symm
          · exact ht he

lemma startupInit_spec {g : DependencyGraph} :
    startupInit g =
      (g.services.map (fun s =>
        (s, (((lookupA g.reverse_edges s).getD []).length : Int))),
       g.services.filter (fun s =>
        decide ((((lookupA g.reverse_edges s).getD []).length : Int) = 0))) := by
  unfold startupInit
  suffices h : ∀ (l : List String) (acc : List (String × Int) × List String),
      l.foldl (fun acc service =>
        (acc.1 ++ [(service,
          (((lookupA g.reverse_edges service).getD []).length : Int))],
         if (((lookupA g.reverse_edges service).getD []).length : Int) = 0
         then acc.2 ++ [service] else acc.2)) acc =
      (acc.1 ++ l.map (fun s =>
        (s, (((lookupA g.reverse_edges s).getD []).length : Int))),
       acc.2 ++ l.filter (fun s =>
        decide ((((lookupA g.reverse_edges s).getD []).length : Int) = 0))) by
    rw [h g.services ([], [])]
    simp
  intro l
  induction l with
  | nil => intro acc; simp
  | cons a as ih =>
      intro acc
      rw [List.foldl_cons, ih]
      simp only [List.map_cons, List.filter_cons]
      by_cases ha : (((lookupA g.reverse_edges a).getD []).length : Int) = 0
      · rw [if_pos ha, if_pos (decide_eq_true_eq.mpr ha)]
        simp
      · rw [if_neg ha, if_neg (by simpa using ha)]
        simp

lemma kahnStep_eval {inDeg : List (String × Int)} {q : List String}
    {d : String} :
    kahnStep (inDeg, q) d =
      (alAdjust inDeg d (fun _ => ((lookupA inDeg d).getD 0) - 1),
       if ((lookupA inDeg d).getD 0) - 1 = 0 then q ++ [d] else q) := rfl

lemma kahnFold_spec :
    ∀ (ds : List String) (inDeg : List (String × Int)) (q : List String),
    ds.Nodup →
    (∀ t, lookupA (ds.foldl kahnStep (inDeg, q)).1 t =
      if t ∈ ds then (lookupA inDeg t).map (fun v => v - 1)
      else lookupA inDeg t) ∧
    ((ds.foldl kahnStep (inDeg, q)).2 =
      q ++ ds.filter (fun t => decide (((lookupA inDeg t).getD 0) - 1 = 0))) := by
  intro ds
  induction ds with
  | nil =>
      intro inDeg q _
      simp only [List.foldl_nil, List.filter_nil, List.append_nil]
      exact ⟨fun t => by simp, trivial⟩
  | cons d rest ih =>
      intro inDeg q hnd
      rw [List.nodup_cons] at hnd
      rw [List.foldl_cons, kahnStep_eval]
      obtain ⟨ih1, ih2⟩ := ih
        (alAdjust inDeg d (fun _ => ((lookupA inDeg d).getD 0) - 1))
        (if ((lookupA inDeg d).getD 0) - 1 = 0 then q ++ [d] else q) hnd.2
      constructor
      · intro t
        rw [ih1 t]
        by_cases htr : t ∈ rest
        · have htd : ¬ t = d := fun he => hnd.1 (he ▸ htr)
          rw [if_pos htr, if_pos (List.mem_cons.mpr (Or.inr htr)),
              lookupA_alAdjust_other htd]
        · rw [if_neg htr]
          by_cases htd : t = d
          · subst htd
            rw [if_pos (List.mem_cons_self _ _), lookupA_alAdjust_self]
            cases lookupA inDeg t <;> simp
          · rw [if_neg (fun hm => by
              rcases List.mem_cons.mp hm with he | he
              · exact htd he
              · exact htr he)]
            exact lookupA_alAdjust_other htd
      · rw [ih2]
        have hfc : rest.filter (fun t => decide
              (((lookupA (alAdjust inDeg d
                (fun _ => ((lookupA inDeg d).getD 0) - 1)) t).getD 0) - 1
                  = 0)) =
            rest.filter (fun t => decide
              (((lookupA inDeg t).getD 0) - 1 = 0)) := by
          apply List.filter_congr
          intro t ht
          have htd : ¬ t = d := fun he => hnd.1 (he ▸ ht)
          rw [lookupA_alAdjust_other htd]
        rw [hfc, List.filter_cons]
        by_cases hd0 : ((lookupA inDeg d).getD 0) - 1 = 0
        · rw [if_pos hd0, if_pos (by simpa using hd0)]
          simp
        · rw [if_neg hd0, if_neg (by simpa using hd0)]

end Krill

namespace Krill

lemma kahnLoop_main (g : DependencyGraph)
    (hfw : ∀ d x, x ∈ fwdNames g d ↔ (x ∈ g.services ∧ d ∈ revNames g x))
    (hfnd : ∀ d, (fwdNames g d).Nodup) :
    ∀ (fuel : Nat) (inDeg : List (String × Int)) (queue order : List String),
    (∀ t, lookupA inDeg t =
      if t ∈ g.services then
        some (((revNames g t).length : Int) -
          ((order.filter (fun d => decide (t ∈ fwdNames g d))).length : Int))
      else none) →
    (order ++ queue).Nodup →
    (∀ z ∈ order ++ queue, z ∈ g.services) →
    (∀ t ∈ queue, ∀ d ∈ revNames g t, d ∈ order) →
    (∀ j t, order.get? j = some t → ∀ d ∈ revNames g t,
      ∃ i, i < j ∧ order.get? i = some d) →
    (∀ z ∈ order ++ queue,
      (revNames g z).length ≤
        (order.filter (fun d => decide (z ∈ fwdNames g d))).length) →
    ∀ ord, kahnLoop g fuel inDeg queue order = some ord →
      ord.Nodup ∧ (∀ z ∈ ord, z ∈ g.services) ∧
      (∀ j t, ord.get? j = some t → ∀ d ∈ revNames g t,
        ∃ i, i < j ∧ ord.get? i = some d) := by
  intro fuel
  induction fuel with
  | zero =>
      intro inDeg queue order _ hnd hmem _ hK4 _ ord h
      match queue with
      | [] =>
          replace h : some order = some ord := h
          cases h
          rw [List.append_nil] at hnd hmem
          exact ⟨hnd, hmem, hK4⟩
      | q :: qs =>
          replace h : (none : Option (List String)) = some ord := h
          cases h
  | succ fuel ih =>
      intro inDeg queue order hK1 hnd hmem hK3 hK4 hK5 ord h
      match queue with
      | [] =>
          replace h : some order = some ord := h
          cases h
          rw [List.append_nil] at hnd hmem
          exact ⟨hnd, hmem, hK4⟩
      | s :: rest =>
          have hred : kahnLoop g (fuel + 1) inDeg (s :: rest) order =
              kahnLoop g fuel
                ((fwdNames g s).foldl kahnStep (inDeg, rest)).1
                ((fwdNames g s).foldl kahnStep (inDeg, rest)).2
                (order ++ [s]) := rfl
          rw [hred] at h
          rcases hst : (fwdNames g s).foldl kahnStep (inDeg, rest) with
            ⟨inDeg2, queue2⟩
          rw [hst] at h
          obtain ⟨F1t, F2t⟩ := kahnFold_spec (fwdNames g s) inDeg rest (hfnd s)
          rw [hst] at F1t F2t
          have F1 : ∀ t, lookupA inDeg2 t =
              if t ∈ fwdNames g s then (lookupA inDeg t).map (fun v => v - 1)
              else lookupA inDeg t := F1t
          have F2 : queue2 = rest ++ (fwdNames g s).filter
              (fun t => decide (((lookupA inDeg t).getD 0) - 1 = 0)) := F2t
          have hsserv : s ∈ g.services :=
            hmem s (List.mem_append.mpr (Or.inr (List.mem_cons_self _ _)))
          have hdsserv : ∀ t ∈ fwdNames g s, t ∈ g.services :=
            fun t ht => ((hfw s t).mp ht).1
          have hcnt : ∀ t, ((order ++ [s]).filter
              (fun d => decide (t ∈ fwdNames g d))).length =
              (order.filter (fun d => decide (t ∈ fwdNames g d))).length +
                (if t ∈ fwdNames g s then 1 else 0) := by
            intro t
            rw [List.filter_append, List.length_append]
            by_cases hts : t ∈ fwdNames g s
            · simp [hts]
            · simp [hts]
          have hpush : ∀ t, t ∈ (fwdNames g s).filter
              (fun t => decide (((lookupA inDeg t).getD 0) - 1 = 0)) ↔
              (t ∈ fwdNames g s ∧ (revNames g t).length =
                (order.filter (fun d => decide (t ∈ fwdNames g d))).length
                  + 1) := by
            intro t
            rw [List.mem_filter]
            constructor
            · rintro ⟨hts, hdec⟩
              rw [decide_eq_true_eq] at hdec
              rw [hK1 t, if_pos (hdsserv t hts)] at hdec
              refine ⟨hts, ?_⟩
              simp only [Option.getD_some] at hdec
              omega
            · rintro ⟨hts, hlen⟩
              refine ⟨hts, ?_⟩
              rw [decide_eq_true_eq, hK1 t, if_pos (hdsserv t hts)]
              simp only [Option.getD_some]
              omega
          have hdisj : ∀ t ∈ (fwdNames g s).filter
              (fun t => decide (((lookupA inDeg t).getD 0) - 1 = 0)),
              t ∉ order ++ s :: rest := by
            intro t ht hmem2
            obtain ⟨_, hlen⟩ := (hpush t).mp ht
            have := hK5 t hmem2
            omega
          have horder1nd : (order ++ [s]).Nodup := by
            have hsl : (order ++ [s]).Sublist (order ++ s :: rest) := by
              apply List.Sublist.append (List.Sublist.refl order)
              exact (List.singleton_sublist.mpr (List.mem_cons_self _ _))
            exact hsl.nodup hnd
          -- invariants for the recursive call
          have hK1n : ∀ t, lookupA inDeg2 t =
              if t ∈ g.services then
                some (((revNames g t).length : Int) -
                  (((order ++ [s]).filter
                    (fun d => decide (t ∈ fwdNames g d))).length : Int))
              else none := by
            intro t
            rw [F1 t]
            by_cases hts : t ∈ g.services
            · simp only [hK1 t, if_pos hts]
              by_cases htds : t ∈ fwdNames g s
              · simp only [if_pos htds, Option.map]
                rw [hcnt t, if_pos htds]
                congr 1
                push_cast
                ring
              · simp only [if_neg htds]
                rw [hcnt t, if_neg htds]
                norm_num
            · have htds : t ∉ fwdNames g s := fun h2 => hts (hdsserv t h2)
              simp only [hK1 t, if_neg hts, if_neg htds]
          have hXeq : (order ++ [s]) ++ queue2 =
              (order ++ s :: rest) ++ (fwdNames g s).filter
                (fun t => decide (((lookupA inDeg t).getD 0) - 1 = 0)) := by
            rw [F2]
            simp
          have hndn : ((order ++ [s]) ++ queue2).Nodup := by
            rw [hXeq]
            refine List.Nodup.append hnd ?_ ?_
            · exact (hfnd s).filter _
            · intro a ha hb
              exact hdisj a hb ha
          have hmemn : ∀ z ∈ (order ++ [s]) ++ queue2, z ∈ g.services := by
            rw [hXeq]
            intro z hz
            rcases List.mem_append.mp hz with hz2 | hz2
            · exact hmem z hz2
            · exact hdsserv z (List.mem_of_mem_filter hz2)
          have hK3n : ∀ t ∈ queue2, ∀ d ∈ revNames g t, d ∈ order ++ [s] := by
            rw [F2]
            intro t ht d hd
            rcases List.mem_append.mp ht with ht2 | ht2
            · exact List.mem_append.mpr (Or.inl
                (hK3 t (List.mem_cons_of_mem _ ht2) d hd))
            · obtain ⟨hts, hlen⟩ := (hpush t).mp ht2
              -- every dependency of t already appears in order ++ [s]
              have htserv : t ∈ g.services := hdsserv t hts
              have hfd : ∀ d2 ∈ (order ++ [s]).filter
                  (fun d2 => decide (t ∈ fwdNames g d2)),
                  d2 ∈ revNames g t := by
                intro d2 hd2
                have h1 := List.of_mem_filter hd2
                rw [decide_eq_true_eq] at h1
                exact ((hfw d2 t).mp h1).2
              have hfnd2 : ((order ++ [s]).filter
                  (fun d2 => decide (t ∈ fwdNames g d2))).Nodup :=
                horder1nd.filter _
              have hlen2 : (revNames g t).dedup.length ≤
                  ((order ++ [s]).filter
                    (fun d2 => decide (t ∈ fwdNames g d2))).length := by
                have := (List.dedup_sublist (revNames g t)).length_le
                rw [hcnt t, if_pos hts]
                omega
              have hall := mem_of_nodup_subset_card hfnd2 hfd hlen2
              exact List.mem_of_mem_filter (hall d hd)
          have hK4n : ∀ j t, (order ++ [s]).get? j = some t →
              ∀ d ∈ revNames g t, ∃ i, i < j ∧
                (order ++ [s]).get? i = some d := by
            intro j t hj d hd
            by_cases hjlt : j < order.length
            · rw [List.get?_append hjlt] at hj
              obtain ⟨i, hi1, hi2⟩ := hK4 j t hj d hd
              exact ⟨i, hi1, by
                rw [List.get?_append (Nat.lt_trans hi1 hjlt)]
                exact hi2⟩
            · by_cases hjeq : j = order.length
              · subst hjeq
                rw [List.get?_concat_length] at hj
                injection hj with hj2
                subst hj2
                have hdord : d ∈ order :=
                  hK3 s (List.mem_cons_self _ _) d hd
                obtain ⟨i, hi⟩ := List.get?_of_mem hdord
                have hilt : i < order.length := by
                  by_contra hge
                  rw [List.get?_eq_none.mpr (Nat.le_of_not_lt hge)] at hi
                  cases hi
                exact ⟨i, hilt, by
                  rw [List.get?_append hilt]
                  exact hi⟩
              · exfalso
                have hge : (order ++ [s]).length ≤ j := by
                  rw [List.length_append, List.length_singleton]
                  omega
                rw [List.get?_eq_none.mpr hge] at hj
                cases hj
          have hK5n : ∀ z ∈ (order ++ [s]) ++ queue2,
              (revNames g z).length ≤
                ((order ++ [s]).filter
                  (fun d => decide (z ∈ fwdNames g d))).length := by
            rw [hXeq]
            intro z hz
            rcases List.mem_append.mp hz with hz2 | hz2
            · have := hK5 z hz2
              rw [hcnt z]
              by_cases hzs : z ∈ fwdNames g s
              · rw [if_pos hzs]; omega
              · rw [if_neg hzs]; omega
            · obtain ⟨hts, hlen⟩ := (hpush z).mp hz2
              rw [hcnt z, if_pos hts]
              omega
          exact ih inDeg2 queue2 (order ++ [s]) hK1n hndn hmemn hK3n
            hK4n hK5n ord h

end Krill

namespace Krill

lemma startup_order_main {input : List (String × List Dependency)}
    {g : DependencyGraph} (hnd : (keysOf input).Nodup)
    (h : DependencyGraph.new input = .ok g) :
    ∀ ord, g.startup_order = .ok ord →
      ord.Nodup ∧ (∀ z, z ∈ ord ↔ z ∈ g.services) ∧
      (∀ j t, ord.get? j = some t → ∀ d ∈ revNames g t,
        ∃ i, i < j ∧ ord.get? i = some d) := by
  have hsnd : g.services.Nodup := by
    rw [new_services h]
    exact newServices_nodup
  have hserv_keys : ∀ x, x ∈ g.services ↔ x ∈ keysOf input := by
    intro x
    rw [new_services h]
    exact mem_newServices
  have hfw : ∀ d x, x ∈ fwdNames g d ↔ (x ∈ g.services ∧ d ∈ revNames g x) := by
    intro d x
    rw [new_fwd hnd h d x, new_revNames hnd h x, hserv_keys x]
  have hfnd : ∀ d, (fwdNames g d).Nodup := new_fwd_nodup h
  have hfst : (startupInit g).1 = g.services.map (fun s =>
      (s, (((lookupA g.reverse_edges s).getD []).length : Int))) := by
    rw [startupInit_spec]
  have hsnd2 : (startupInit g).2 = g.services.filter (fun s =>
      decide ((((lookupA g.reverse_edges s).getD []).length : Int) = 0)) := by
    rw [startupInit_spec]
  have hq0 : ∀ t ∈ (startupInit g).2, revNames g t = [] := by
    intro t ht
    rw [hsnd2] at ht
    have h2 := List.of_mem_filter ht
    rw [decide_eq_true_eq] at h2
    have h3 : (revNames g t).length = 0 := by
      rw [revNames_length]
      omega
    exact List.length_eq_zero.mp h3
  have hK1 : ∀ t, lookupA (startupInit g).1 t =
      if t ∈ g.services then
        some (((revNames g t).length : Int) -
          ((([] : List String).filter
            (fun d => decide (t ∈ fwdNames g d))).length : Int))
      else none := by
    intro t
    rw [hfst, lookupA_map_pair]
    by_cases ht : t ∈ g.services
    · rw [if_pos ht, if_pos ht]
      congr 1
      rw [revNames_length]
      simp
    · rw [if_neg ht, if_neg ht]
  have hK2 : (([] : List String) ++ (startupInit g).2).Nodup := by
    rw [List.nil_append, hsnd2]
    exact hsnd.filter _
  have hmem : ∀ z ∈ ([] : List String) ++ (startupInit g).2,
      z ∈ g.services := by
    intro z hz
    rw [List.nil_append, hsnd2] at hz
    exact List.mem_of_mem_filter hz
  have hK3 : ∀ t ∈ (startupInit g).2, ∀ d ∈ revNames g t,
      d ∈ ([] : List String) := by
    intro t ht d hd
    rw [hq0 t ht] at hd
    cases hd
  have hK4 : ∀ j t, ([] : List String).get? j = some t →
      ∀ d ∈ revNames g t, ∃ i, i < j ∧
        ([] : List String).get? i = some d := by
    intro j t hj
    simp at hj
  have hK5 : ∀ z ∈ ([] : List String) ++ (startupInit g).2,
      (revNames g z).length ≤
        (([] : List String).filter
          (fun d => decide (z ∈ fwdNames g d))).length := by
    intro z hz
    rw [List.nil_append] at hz
    rw [hq0 z hz]
    simp
  intro ord hso
  replace hso : (match kahnLoop g (kahnFuel g) (startupInit g).1
      (startupInit g).2 [] with
    | none => (Except.error (DagError.OrderingError
        "Unable to determine complete startup order") :
        Except DagError (List String))
    | some order => if order.length = g.services.length then .ok order
        else .error (.OrderingError
          "Unable to determine complete startup order")) = .ok ord := hso
  cases hkl : kahnLoop g (kahnFuel g) (startupInit g).1 (startupInit g).2 []
      with
  | none =>
      rw [hkl] at hso
      replace hso : (Except.error (DagError.OrderingError
          "Unable to determine complete startup order") :
          Except DagError (List String)) = .ok ord := hso
      cases hso
  | some ord0 =>
      rw [hkl] at hso
      replace hso : (if ord0.length = g.services.length
          then (Except.ok ord0 : Except DagError (List String))
          else .error (.OrderingError
            "Unable to determine complete startup order")) = .ok ord := hso
      by_cases hlen : ord0.length = g.services.length
      · rw [if_pos hlen] at hso
        injection hso with hso2
        subst hso2
        obtain ⟨hnd0, hmem0, htopo⟩ := kahnLoop_main g hfw hfnd (kahnFuel g)
          (startupInit g).1 (startupInit g).2 [] hK1 hK2 hmem hK3 hK4 hK5
          ord0 hkl
        refine ⟨hnd0, ?_, htopo⟩
        intro z
        constructor
        · exact hmem0 z
        · intro hz
          have hdl : g.services.dedup.length ≤ ord0.length := by
            rw [List.dedup_eq_self.mpr hsnd]
            omega
          exact mem_of_nodup_subset_card hnd0 hmem0 hdl z hz
      · rw [if_neg hlen] at hso
        cases hso

end Krill

namespace Krill

/-- C3 counterexample: the input in which b declares the dependency a
twice builds successfully, yet startup_order does not return any list: the
duplicated reverse edge gives b an in-degree of 2 while a holds only one
forward edge to b, so b's degree never reaches zero and the loop ends with
an incomplete order, reported as an OrderingError. -/
theorem claim_C3_counterexample :
    DependencyGraph.new inputDupDep = .ok builtDupDep ∧
    builtDupDep.startup_order =
      .error (.OrderingError "Unable to determine complete startup order") :=
  ⟨rfl, rfl⟩

/-- C3 (amended): for a graph built successfully from an input whose keys
are distinct, whenever startup_order returns an Ok list, that list contains
each service exactly once and, for every edge d -> s where s depends on d,
d appears at a strictly earlier position than s; and shutdown_order then
returns exactly the reverse of that list.  (That startup_order always
returns Ok on built graphs is refuted by the counterexample.) -/
theorem claim_C3_topological_order
    (input : List (String × List Dependency)) (g : DependencyGraph)
    (hnd : (keysOf input).Nodup)
    (h : DependencyGraph.new input = .ok g) :
    ∀ ord, g.startup_order = .ok ord →
      ord.Nodup ∧ (∀ z, z ∈ ord ↔ z ∈ g.services) ∧
      (∀ j s, ord.get? j = some s → ∀ d ∈ revNames g s,
        ∃ i, i < j ∧ ord.get? i = some d) ∧
      g.shutdown_order = .ok ord.reverse := by
  intro ord hso
  obtain ⟨h1, h2, h3⟩ := startup_order_main hnd h ord hso
  refine ⟨h1, h2, h3, ?_⟩
  unfold DependencyGraph.shutdown_order
  rw [hso]
  rfl

/-- C3 witness: on the linear three-service input the startup order is
computed as [a, b, c]; the amended theorem applies to it and the shutdown
order is its reverse. -/
theorem claim_C3_topological_order_witness :
    (keysOf inputLinear).Nodup ∧
    builtLinear.startup_order = .ok ["a", "b", "c"] ∧
    (["a", "b", "c"] : List String).Nodup ∧
    builtLinear.shutdown_order = .ok ["c", "b", "a"] := by
  refine ⟨by decide, by rfl, ?_, ?_⟩
  · exact (claim_C3_topological_order inputLinear builtLinear (by decide)
      (by rfl) ["a", "b", "c"] (by rfl)).1
  · exact (claim_C3_topological_order inputLinear builtLinear (by decide)
      (by rfl) ["a", "b", "c"] (by rfl)).2.2.2

end Krill

namespace Krill

lemma string_mk_data (s : String) : String.mk s.data = s := rfl

lemma isTokenB_elim {s : String} (h : isTokenB s = true) :
    s.data ≠ [] ∧ ∀ c ∈ s.data, rustIsWhitespace c = false := by
  unfold isTokenB at h
  rw [Bool.and_eq_true] at h
  obtain ⟨ha, hb⟩ := h
  constructor
  · intro he
    rw [he] at ha
    simp at ha
  · intro c hc
    rw [List.all_eq_true] at hb
    have h2 := hb c hc
    simp only [Bool.not_eq_true'] at h2
    exact h2

lemma splitWsAux_accum :
    ∀ (tok rest cur : List Char), (∀ c ∈ tok, rustIsWhitespace c = false) →
    splitWsAux (tok ++ rest) cur = splitWsAux rest (cur ++ tok) := by
  intro tok
  induction tok with
  | nil =>
      intro rest cur _
      simp
  | cons c cs ih =>
      intro rest cur h
      have hc : rustIsWhitespace c = false := h c (List.mem_cons_self _ _)
      have hstep : splitWsAux ((c :: cs) ++ rest) cur =
          splitWsAux (cs ++ rest) (cur ++ [c]) := by
        show (if rustIsWhitespace c = true then
            (if cur = [] then splitWsAux (cs ++ rest) []
             else cur :: splitWsAux (cs ++ rest) [])
          else splitWsAux (cs ++ rest) (cur ++ [c])) =
          splitWsAux (cs ++ rest) (cur ++ [c])
        rw [if_neg (by simp [hc])]
      rw [hstep, ih rest (cur ++ [c])
        (fun x hx => h x (List.mem_cons_of_mem _ hx))]
      congr 1
      simp

lemma splitWsAux_nows {cs cur : List Char}
    (h : ∀ c ∈ cs, rustIsWhitespace c = false) :
    splitWsAux cs cur = if cur ++ cs = [] then [] else [cur ++ cs] := by
  have h1 : splitWsAux (cs ++ []) cur = splitWsAux [] (cur ++ cs) :=
    splitWsAux_accum cs [] cur h
  rw [List.append_nil] at h1
  rw [h1]
  rfl

lemma splitWsAux_ws_head {c : Char} {rest cur : List Char}
    (hc : rustIsWhitespace c = true) (hcur : cur ≠ []) :
    splitWsAux (c :: rest) cur = cur :: splitWsAux rest [] := by
  show (if rustIsWhitespace c = true then
      (if cur = [] then splitWsAux rest [] else cur :: splitWsAux rest [])
    else splitWsAux rest (cur ++ [c])) = cur :: splitWsAux rest []
  rw [if_pos hc, if_neg hcur]

lemma rustSplit_single {s : String} (h : isTokenB s = true) :
    rustSplitWhitespace s = [s] := by
  obtain ⟨h1, h2⟩ := isTokenB_elim h
  unfold rustSplitWhitespace
  rw [splitWsAux_nows h2, List.nil_append, if_neg h1]
  simp [string_mk_data]

lemma rustSplit_pair {s w : String} (hs : isTokenB s = true)
    (hw : isTokenB w = true) :
    rustSplitWhitespace (s ++ " " ++ w) = [s, w] := by
  obtain ⟨hs1, hs2⟩ := isTokenB_elim hs
  obtain ⟨hw1, hw2⟩ := isTokenB_elim hw
  unfold rustSplitWhitespace
  have hdata : (s ++ " " ++ w).data = s.data ++ (' ' :: w.data) := by
    show (s.data ++ [' ']) ++ w.data = s.data ++ (' ' :: w.data)
    simp
  rw [hdata, splitWsAux_accum s.data (' ' :: w.data) [] hs2,
      List.nil_append, splitWsAux_ws_head (by decide) hs1,
      splitWsAux_nows hw2, List.nil_append, if_neg hw1]
  simp [string_mk_data]

end Krill

namespace Krill

/-- C10 counterexample: a Simple dependency whose name contains a space
serializes to that bare name, but deserializing it re-parses the second
token as a condition and yields a different Dependency value, so the
round-trip fails without a token restriction on service names. -/
theorem claim_C10_counterexample :
    serializeDependency (Dependency.Simple "a healthy") = "a healthy" ∧
    deserializeDependency (.str (serializeDependency
      (Dependency.Simple "a healthy"))) =
      .ok (Dependency.WithCondition "a" .Healthy) ∧
    Dependency.WithCondition "a" DependencyCondition.Healthy ≠
      Dependency.Simple "a healthy" :=
  ⟨rfl, rfl, by decide⟩

/-- C10 (amended): for every Dependency whose service name is a single
non-empty whitespace-free token, deserializing its serialized form yields
an equal Dependency (a Simple dependency serializes to the bare name, a
conditioned one to the name, a space and the condition word); and for
every such token s and every condition, the mapping form deserializes to
the same value as the string form, so the two manifest syntaxes agree.
Without the token restriction the round-trip fails (see the
counterexample). -/
theorem claim_C10_serde_roundtrip (d : Dependency) (s : String)
    (cond : DependencyCondition)
    (hd : dependencyTokenOk d = true) (hs : isTokenB s = true) :
    deserializeDependency (.str (serializeDependency d)) = .ok d ∧
    deserializeDependency (.map [(s, condToStr cond)]) =
      deserializeDependency (.str (s ++ " " ++ condToStr cond)) := by
  constructor
  · cases d with
    | Simple name =>
        have hsplit := rustSplit_single (s := name) hd
        show visitStr name = .ok (.Simple name)
        unfold visitStr
        rw [hsplit]
    | WithCondition service cond2 =>
        cases cond2 with
        | Started =>
            have hsplit := rustSplit_pair (s := service) (w := "started")
              hd (by decide)
            show visitStr (service ++ " " ++ "started") =
              .ok (.WithCondition service .Started)
            unfold visitStr
            rw [hsplit]
            simp
        | Healthy =>
            have hsplit := rustSplit_pair (s := service) (w := "healthy")
              hd (by decide)
            show visitStr (service ++ " " ++ "healthy") =
              .ok (.WithCondition service .Healthy)
            unfold visitStr
            rw [hsplit]
            simp
  · cases cond with
    | Started =>
        have hsplit := rustSplit_pair (s := s) (w := "started") hs (by decide)
        show visitMap [(s, "started")] = visitStr (s ++ " " ++ "started")
        unfold visitMap visitStr
        rw [hsplit]
        simp
    | Healthy =>
        have hsplit := rustSplit_pair (s := s) (w := "healthy") hs (by decide)
        show visitMap [(s, "healthy")] = visitStr (s ++ " " ++ "healthy")
        unfold visitMap visitStr
        rw [hsplit]
        simp

/-- C10 witness: the round-trip holds at the conditioned dependency
(lidar, Healthy) and the two manifest syntaxes agree at (cam, started),
the hypotheses holding by computation. -/
theorem claim_C10_serde_roundtrip_witness :
    dependencyTokenOk (Dependency.WithCondition "lidar" .Healthy) = true ∧
    isTokenB "cam" = true ∧
    deserializeDependency (.str (serializeDependency
      (Dependency.WithCondition "lidar" .Healthy))) =
      .ok (Dependency.WithCondition "lidar" .Healthy) ∧
    deserializeDependency (.map [("cam", condToStr .Started)]) =
      deserializeDependency (.str ("cam" ++ " " ++ condToStr .Started)) := by
  refine ⟨by decide, by decide, ?_, ?_⟩
  · exact (claim_C10_serde_roundtrip
      (Dependency.WithCondition "lidar" .Healthy) "cam" .Started
      (by decide) (by decide)).1
  · exact (claim_C10_serde_roundtrip
      (Dependency.WithCondition "lidar" .Healthy) "cam" .Started
      (by decide) (by decide)).2

end Krill
